import Mathlib

/-!
Verification of the overthink build planner core.

This file shallowly embeds the planner's data model and the operations of
`intermediates.go` (global layer ordering, absolute layer sequences,
intermediate synthesis) and the merge planner, and proves or refutes the
frozen specification claims about them.

Modelling conventions:
* Go maps are represented as association lists (`List (String × _)`) with
  first-match lookup; map stores replace in place or append.  Wherever the Go
  code iterates a map in a way whose outcome is order-insensitive, the
  embedding iterates the association list in its given order.  The one
  order-sensitive map iteration (the `baseGroups` loop of
  `ComputeIntermediates`) is made explicit as a `keyOrder` parameter.
* Go machine integers are modelled as `Int` (layer sizes) or `Nat`
  (popularity counts); no overflow is relevant at these sizes.
* Recursions that Go runs unboundedly (base-chain walks, trie walks, the
  fresh-name loop) take an explicit fuel argument; exhausting fuel returns
  the accumulator unchanged (or `none`), which never occurs on the
  acyclic/finite inputs the program is specified for.
-/

/-- A layer: name plus ordered dependency names.  The recipe-kind booleans of
the Go struct (HasRootYml, HasPixiToml, ...) are not consulted by any of the
functions under verification and are omitted. -/
structure Layer where
  Name : String
  Depends : List String
deriving DecidableEq, Repr

/-- A resolved image, mirroring the Go `ResolvedImage` struct fields that the
verified functions read or write. -/
structure ResolvedImage where
  Name : String
  Base : String
  IsExternalBase : Bool
  Layers : List String
  Tag : String
  Registry : String
  Pkg : String
  FullTag : String
  Platforms : List String
  User : String
  Home : String
  UID : Int
  GID : Int
  Merge : Bool
  Bootc : Bool
  Auto : Bool
deriving DecidableEq, Repr

/-- Per-image configuration record (also used for `defaults`). -/
structure ImageConfig where
  Base : String
  Layers : List String
  Tag : String
  Registry : String
  Pkg : String
  Platforms : List String
  User : String
  UID : Option Int
  GID : Option Int
  Merge : Bool
  Builder : String
deriving DecidableEq, Repr

/-- The loaded configuration: defaults plus the per-image table. -/
structure Config where
  Defaults : ImageConfig
  Images : List (String × ImageConfig)
deriving DecidableEq, Repr

/-- Association-list lookup, first match wins (Go map read). -/
def lookupA {α : Type} (m : List (String × α)) (k : String) : Option α :=
  match m with
  | [] => none
  | (k1, v) :: t => if k1 = k then some v else lookupA t k

/-- Association-list store: replace in place if the key exists, else append
(Go map write; appending keeps a deterministic representation). -/
def setA {α : Type} (m : List (String × α)) (k : String) (v : α) :
    List (String × α) :=
  match m with
  | [] => [(k, v)]
  | (k1, v1) :: t => if k1 = k then (k1, v) :: t else (k1, v1) :: setA t k v

/-- Keys of an association list. -/
def keysA {α : Type} (m : List (String × α)) : List String := m.map (·.1)

/-- Membership of a key (Go `_, ok := m[k]`). -/
def hasKeyA {α : Type} (m : List (String × α)) (k : String) : Bool :=
  (lookupA m k).isSome

theorem lookupA_isSome_iff_mem_keys {α : Type} (m : List (String × α))
    (k : String) : (lookupA m k).isSome ↔ k ∈ keysA m := by
  induction m with
  | nil => simp [lookupA, keysA]
  | cons p t ih =>
    obtain ⟨k1, v⟩ := p
    by_cases h : k1 = k
    · simp [lookupA, keysA, h]
    · have hne : ¬ k = k1 := fun hkk => h hkk.symm
      simp [lookupA, keysA, h, hne, ih]

theorem lookupA_eq_none_iff_not_mem_keys {α : Type} (m : List (String × α))
    (k : String) : lookupA m k = none ↔ k ∉ keysA m := by
  rw [← lookupA_isSome_iff_mem_keys]
  cases lookupA m k <;> simp

theorem keysA_setA {α : Type} (m : List (String × α)) (k : String) (v : α) :
    keysA (setA m k v) = if k ∈ keysA m then keysA m else keysA m ++ [k] := by
  induction m with
  | nil => simp [setA, keysA]
  | cons p t ih =>
    obtain ⟨k1, v1⟩ := p
    by_cases h : k1 = k
    · simp [setA, keysA, h]
    · have hne : ¬ k = k1 := fun hkk => h hkk.symm
      by_cases hk : k ∈ keysA t <;>
        simp only [keysA, List.map] at ih hk ⊢ <;>
        simp [setA, keysA, h, hk, hne, ih]

theorem lookupA_setA_self {α : Type} (m : List (String × α)) (k : String)
    (v : α) : lookupA (setA m k v) k = some v := by
  induction m with
  | nil => simp [setA, lookupA]
  | cons p t ih =>
    obtain ⟨k1, v1⟩ := p
    by_cases h : k1 = k <;> simp [setA, lookupA, h, ih]

theorem lookupA_setA_ne {α : Type} (m : List (String × α)) (k k2 : String)
    (v : α) (h : k ≠ k2) : lookupA (setA m k v) k2 = lookupA m k2 := by
  induction m with
  | nil => simp [setA, lookupA, h]
  | cons p t ih =>
    obtain ⟨k1, v1⟩ := p
    by_cases h1 : k1 = k
    · subst h1
      simp [setA, lookupA, h]
    · simp [setA, lookupA, h1, ih]

/-- Lexicographic comparison of character lists by codepoint.  Go compares
strings byte-wise; on UTF-8 data byte order and codepoint order coincide, so
this is the order Go string comparison induces.  (The builtin `String`
order is defined by well-founded recursion over iterators and does not
reduce in the kernel, hence this structural equivalent.) -/
def charListLe : List Char → List Char → Bool
  | [], _ => true
  | _ :: _, [] => false
  | a :: as, b :: bs =>
    if a.toNat < b.toNat then true
    else if b.toNat < a.toNat then false
    else charListLe as bs

/-- Lexicographic string comparison (Go `a <= b` on strings). -/
def strLe (a b : String) : Bool := charListLe a.data b.data

theorem charListLe_total (a b : List Char) :
    charListLe a b = true ∨ charListLe b a = true := by
  induction a generalizing b with
  | nil => exact Or.inl rfl
  | cons x xs ih =>
    cases b with
    | nil => exact Or.inr rfl
    | cons y ys =>
      rcases Nat.lt_trichotomy x.toNat y.toNat with h | h | h
      · exact Or.inl (by simp [charListLe, h])
      · have h1 : ¬ x.toNat < y.toNat := by omega
        have h2 : ¬ y.toNat < x.toNat := by omega
        rcases ih ys with hc | hc
        · exact Or.inl (by simp [charListLe, h1, h2, hc])
        · exact Or.inr (by simp [charListLe, h1, h2, hc])
      · exact Or.inr (by simp [charListLe, h])

theorem charListLe_trans {a b c : List Char} (hab : charListLe a b = true)
    (hbc : charListLe b c = true) : charListLe a c = true := by
  induction a generalizing b c with
  | nil => rfl
  | cons x xs ih =>
    cases b with
    | nil => simp [charListLe] at hab
    | cons y ys =>
      cases c with
      | nil => simp [charListLe] at hbc
      | cons z zs =>
        simp only [charListLe] at hab hbc ⊢
        rcases Nat.lt_trichotomy x.toNat y.toNat with h1 | h1 | h1
        · rcases Nat.lt_trichotomy y.toNat z.toNat with h2 | h2 | h2
          · have hxz : x.toNat < z.toNat := by omega
            simp [hxz]
          · have hxz : x.toNat < z.toNat := by omega
            simp [hxz]
          · have hny : ¬ y.toNat < z.toNat := by omega
            simp [hny, h2] at hbc
        · rcases Nat.lt_trichotomy y.toNat z.toNat with h2 | h2 | h2
          · have hxz : x.toNat < z.toNat := by omega
            simp [hxz]
          · have hn1 : ¬ x.toNat < y.toNat := by omega
            have hn2 : ¬ y.toNat < x.toNat := by omega
            have hn3 : ¬ y.toNat < z.toNat := by omega
            have hn4 : ¬ z.toNat < y.toNat := by omega
            have hn5 : ¬ x.toNat < z.toNat := by omega
            have hn6 : ¬ z.toNat < x.toNat := by omega
            simp [hn1, hn2] at hab
            simp [hn3, hn4] at hbc
            simp [hn5, hn6]
            exact ih hab hbc
          · have hn3 : ¬ y.toNat < z.toNat := by omega
            simp [hn3, h2] at hbc
        · have hn1 : ¬ x.toNat < y.toNat := by omega
          simp [hn1, h1] at hab

theorem strLe_total (a b : String) : strLe a b = true ∨ strLe b a = true :=
  charListLe_total a.data b.data

theorem strLe_trans {a b c : String} (hab : strLe a b = true)
    (hbc : strLe b c = true) : strLe a c = true :=
  charListLe_trans hab hbc

/-- Total strict-weak comparison used throughout: popularity descending,
then name ascending (the comparator of Go `sortByPopularity`). -/
def popOf (pop : List (String × Nat)) (k : String) : Nat :=
  (lookupA pop k).getD 0

/-- The "comes before" relation of `sortByPopularity`: higher popularity
first, ties broken by ascending lexicographic name. -/
def popBefore (pop : List (String × Nat)) (a b : String) : Prop :=
  popOf pop b < popOf pop a ∨ (popOf pop a = popOf pop b ∧ strLe a b = true)

instance (pop : List (String × Nat)) : DecidableRel (popBefore pop) := by
  intro a b
  unfold popBefore
  infer_instance

instance (pop : List (String × Nat)) : IsTotal String (popBefore pop) := by
  constructor
  intro a b
  unfold popBefore
  rcases Nat.lt_trichotomy (popOf pop a) (popOf pop b) with h | h | h
  · exact Or.inr (Or.inl h)
  · rcases strLe_total a b with hab | hab
    · exact Or.inl (Or.inr ⟨h, hab⟩)
    · exact Or.inr (Or.inr ⟨h.symm, hab⟩)
  · exact Or.inl (Or.inl h)

instance (pop : List (String × Nat)) : IsTrans String (popBefore pop) := by
  constructor
  intro a b c hab hbc
  unfold popBefore at hab hbc ⊢
  rcases hab with h1 | ⟨h1, h1b⟩
  · rcases hbc with h2 | ⟨h2, _⟩
    · exact Or.inl (h2.trans h1)
    · exact Or.inl (h2 ▸ h1)
  · rcases hbc with h2 | ⟨h2, h2b⟩
    · exact Or.inl (h1 ▸ h2)
    · exact Or.inr ⟨h1.trans h2, strLe_trans h1b h2b⟩

/-- Go `sortByPopularity` sorts a queue by descending popularity then
ascending name with an in-place exchange sort; over a total comparison this
computes exactly the insertion sort by the same relation. -/
def sortByPopularity (pop : List (String × Nat)) (s : List String) :
    List String :=
  s.insertionSort (popBefore pop)

/-- Modelled from the spec: `sortStrings` (not under src/) sorts strings in
ascending lexicographic order ("lexicographic for image groups, trie
children, and names"). -/
def sortStrings (s : List String) : List String :=
  s.insertionSort (fun a b => strLe a b = true)

/-- Total length of all dependency lists, used only to bound the fuel of the
closure computation. -/
def totalDepsLen (layers : List (String × Layer)) : Nat :=
  (layers.map (fun p => p.2.Depends.length)).sum

/-- Modelled from the spec: worklist computation of the set of layers
reachable from a selection via `Depends` (selection included).  Fails on an
unknown layer name.  `acc` accumulates visited layers in discovery order. -/
def layerClosureAux (layers : List (String × Layer)) :
    Nat → List String → List String → Except String (List String)
  | 0, pending, acc =>
    if pending = [] then .ok acc else .error "closure fuel exhausted"
  | f + 1, pending, acc =>
    match pending with
    | [] => .ok acc
    | p :: rest =>
      if acc.contains p then layerClosureAux layers f rest acc
      else
        match lookupA layers p with
        | none => .error ("unknown layer " ++ p)
        | some ly => layerClosureAux layers f (ly.Depends ++ rest) (acc ++ [p])

/-- Modelled from the spec: lexicographic-minimum Kahn emission over the
needed set.  At each step the lexicographically least layer of `remaining`
all of whose dependencies are outside `remaining` (already emitted, excluded,
or irrelevant) is emitted; if none exists the dependency graph restricted to
`remaining` has a cycle. -/
def topoLexAux (layers : List (String × Layer)) :
    Nat → List String → List String → Except String (List String)
  | 0, remaining, acc =>
    if remaining = [] then .ok acc else .error "cycle detected in layer dependencies"
  | f + 1, remaining, acc =>
    if remaining = [] then .ok acc
    else
      match remaining.find? (fun n =>
        match lookupA layers n with
        | none => false
        | some ly => ly.Depends.all (fun d => !(remaining.contains d))) with
      | none => .error "cycle detected in layer dependencies"
      | some n => topoLexAux layers f (remaining.erase n) (acc ++ [n])

/-- Modelled from the spec: `ResolveLayerOrder` (not under src/) returns a
topological order containing the selection and all transitive dependencies,
minus any layer in `excluded`; ties are broken by ascending lexicographic
name; it fails if a name is unknown or a cycle is detected. -/
def ResolveLayerOrder (selection : List String)
    (layers : List (String × Layer)) (excluded : List String) :
    Except String (List String) := do
  let closure ← layerClosureAux layers
    (selection.length + (layers.length + 1) * (totalDepsLen layers + 1))
    selection []
  let nodes := sortStrings (closure.filter (fun l => !excluded.contains l))
  topoLexAux layers nodes.length nodes []

/-- Modelled from the spec: base-chain walk of `LayersProvidedByImage`.
Fuel exhaustion (a base cycle, on which the Go code would not terminate) is
reported as an error. -/
def providedWalk (images : List (String × ResolvedImage))
    (layers : List (String × Layer)) :
    Nat → String → Except String (List String)
  | 0, _ => .error "image base cycle"
  | f + 1, name =>
    match lookupA images name with
    | none => .ok []
    | some img => do
      let baseSet ← if img.IsExternalBase then pure [] else
        providedWalk images layers f img.Base
      let own ← ResolveLayerOrder img.Layers layers []
      pure (baseSet ++ own.filter (fun l => !baseSet.contains l))

/-- Modelled from the spec: `layers_provided_by_image` (not under src/) is
the transitive closure of everything an image installs: its own resolved
layers plus its base's provided set. -/
def LayersProvidedByImage (name : String)
    (images : List (String × ResolvedImage))
    (layers : List (String × Layer)) : Except String (List String) :=
  providedWalk images layers (images.length + 1) name

/-- The recursive walk of Go `collectAllImageLayers`: base chain first, then
this image's resolved layers, deduplicated in discovery order.  A resolve
error silently skips that image's own layers, as in the source. -/
def collectWalk (images : List (String × ResolvedImage))
    (layers : List (String × Layer)) :
    Nat → String → List String → List String
  | 0, _, acc => acc
  | f + 1, name, acc =>
    match lookupA images name with
    | none => acc
    | some img =>
      let acc1 := if img.IsExternalBase then acc else
        collectWalk images layers f img.Base acc
      match ResolveLayerOrder img.Layers layers [] with
      | .error _ => acc1
      | .ok resolved =>
        resolved.foldl (fun a l => if a.contains l then a else a ++ [l]) acc1

/-- Go `collectAllImageLayers`: the complete set of layers for an image,
including all layers inherited through the base chain. -/
def collectAllImageLayers (imageName : String)
    (images : List (String × ResolvedImage))
    (layers : List (String × Layer)) : List String :=
  collectWalk images layers (images.length + 1) imageName []

/-- Go `AbsoluteLayerSequence`: an image's complete layer set (own plus
entire base chain) as a subsequence of the global order. -/
def AbsoluteLayerSequence (imageName : String)
    (images : List (String × ResolvedImage))
    (layers : List (String × Layer)) (globalOrder : List String) :
    List String :=
  let allLayers := collectAllImageLayers imageName images layers
  globalOrder.filter (fun l => allLayers.contains l)

/-- Go `resolveExternalBase`: walk the base chain to the ultimate external
base (fuelled; the Go loop does not terminate on a base cycle). -/
def resolveExternalBaseAux (images : List (String × ResolvedImage)) :
    Nat → String → String
  | 0, current => current
  | f + 1, current =>
    match lookupA images current with
    | none => current
    | some img =>
      if img.IsExternalBase then img.Base
      else resolveExternalBaseAux images f img.Base

/-- Go `resolveExternalBase`. -/
def resolveExternalBase (imageName : String)
    (images : List (String × ResolvedImage)) : String :=
  resolveExternalBaseAux images (images.length + 1) imageName

/-- Increment a popularity counter (Go `popularity[l]++`). -/
def bumpA (pop : List (String × Nat)) (l : String) : List (String × Nat) :=
  setA pop l (popOf pop l + 1)

/-- Deduplicating append used when merging an image's resolved own layers
into its inherited layer list (Go lines 34-44 of `GlobalLayerOrder`). -/
def dedupAppend (base : List String) (extra : List String) : List String :=
  extra.foldl (fun a l => if a.contains l then a else a ++ [l]) base

/-- The popularity-counting loop of Go `GlobalLayerOrder` (lines 26-48):
for each image, count every layer of its transitive closure (inherited plus
own resolved) once. -/
def popLoop (images : List (String × ResolvedImage))
    (layers : List (String × Layer)) :
    List (String × ResolvedImage) → List (String × Nat) →
    Except String (List (String × Nat))
  | [], pop => .ok pop
  | (_, img) :: rest, pop =>
    match ResolveLayerOrder img.Layers layers [] with
    | .error e => .error e
    | .ok resolved =>
      let allLayers := collectAllImageLayers img.Name images layers
      let merged := dedupAppend allLayers resolved
      popLoop images layers rest (merged.foldl bumpA pop)

/-- The dependency-graph construction of Go `GlobalLayerOrder` (lines
52-65): one node per popular known layer, edges to its popular
dependencies. -/
def buildGraph (pop : List (String × Nat))
    (layers : List (String × Layer)) : List (String × List String) :=
  pop.filterMap (fun p =>
    match lookupA layers p.1 with
    | none => none
    | some ly => some (p.1, ly.Depends.filter (fun dep => hasKeyA pop dep)))

/-- Go `reverseGraph[node]`: every graph node listed once per occurrence of
`n` in its dependency list, in graph order. -/
def dependentsOf (graph : List (String × List String)) (n : String) :
    List String :=
  graph.flatMap (fun p => (p.2.filter (fun d => d = n)).map (fun _ => p.1))

/-- One decrement of Go `inDegree[dep]--` followed by the zero check that
enqueues `dep`.  A missing key reads as 0 and is stored as -1, exactly as a
Go map of ints behaves. -/
def decQueueStep (st : List (String × Int) × List String) (dep : String) :
    List (String × Int) × List String :=
  let v := (lookupA st.1 dep).getD 0 - 1
  (setA st.1 dep v, if v = 0 then st.2 ++ [dep] else st.2)

/-- The loop of Go `topoSortByPopularity`: pop the head of the sorted queue,
decrement its dependents, enqueue any that reach zero, re-sort.  Fuel
`graph.length + 1` is enough for every possible run since each iteration
emits a distinct graph node. -/
def kahnLoop (graph : List (String × List String))
    (pop : List (String × Nat)) :
    Nat → List (String × Int) → List String → List String → List String
  | 0, _, _, result => result
  | f + 1, inDeg, queue, result =>
    match queue with
    | [] => result
    | node :: rest =>
      let st := (dependentsOf graph node).foldl decQueueStep (inDeg, [])
      kahnLoop graph pop f st.1 (sortByPopularity pop (rest ++ st.2))
        (result ++ [node])

/-- The emission sequence of Go `topoSortByPopularity`. -/
def kahnEmitted (graph : List (String × List String))
    (pop : List (String × Nat)) : List String :=
  let inDeg0 := graph.map (fun p => (p.1, (p.2.length : Int)))
  let queue0 :=
    sortByPopularity pop ((graph.filter (fun p => p.2.length = 0)).map (·.1))
  kahnLoop graph pop (graph.length + 1) inDeg0 queue0 []

/-- Go `topoSortByPopularity`: Kahn's algorithm with popularity
tie-breaking; error when fewer nodes are emitted than the graph has. -/
def topoSortByPopularity (graph : List (String × List String))
    (pop : List (String × Nat)) : Except String (List String) :=
  let result := kahnEmitted graph pop
  if result.length ≠ graph.length then
    .error "cycle detected in layer dependency graph"
  else .ok result

/-- Go `GlobalLayerOrder`: popularity counting, graph restriction, then the
popularity-weighted topological sort. -/
def GlobalLayerOrder (images : List (String × ResolvedImage))
    (layers : List (String × Layer)) : Except String (List String) :=
  match popLoop images layers images [] with
  | .error e => .error e
  | .ok pop => topoSortByPopularity (buildGraph pop layers) pop

/-- Test fixture: a resolved image with only the fields relevant to the
planner populated. -/
def mkImage (name base : String) (ext : Bool) (ls : List String) :
    ResolvedImage :=
  { Name := name, Base := base, IsExternalBase := ext, Layers := ls
    Tag := "v1", Registry := "r", Pkg := "rpm"
    FullTag := "r/" ++ name ++ ":v1", Platforms := [], User := ""
    Home := "", UID := 0, GID := 0, Merge := false, Bootc := false
    Auto := false }

/-- Test fixture: a layer. -/
def mkLayer (name : String) (deps : List String) : Layer :=
  { Name := name, Depends := deps }

example :
    GlobalLayerOrder
      [("a", mkImage "a" "ext:1" true ["python"])]
      [("pixi", mkLayer "pixi" []), ("python", mkLayer "python" ["pixi"])] =
    .ok ["pixi", "python"] := by rfl

example :
    GlobalLayerOrder
      [("a", mkImage "a" "ext:1" true ["pixi", "python", "testapi"]),
       ("b", mkImage "b" "ext:1" true ["pixi", "nodejs"])]
      [("pixi", mkLayer "pixi" []), ("nodejs", mkLayer "nodejs" []),
       ("python", mkLayer "python" ["pixi"]),
       ("testapi", mkLayer "testapi" ["python"])] =
    .ok ["pixi", "nodejs", "python", "testapi"] := by rfl

/-- Trie node of `intermediates.go`: layer at this position, children keyed
by layer name, and the user images terminating here. -/
inductive TrieNode where
  | mk (layer : String) (children : List (String × TrieNode))
       (images : List String)

/-- Children of a trie node. -/
def TrieNode.childrenOf : TrieNode → List (String × TrieNode)
  | .mk _ cs _ => cs

/-- Terminal images of a trie node. -/
def TrieNode.imagesOf : TrieNode → List String
  | .mk _ _ imgs => imgs

/-- Insertion of one absolute layer sequence into the trie (the inner loop of
`ComputeIntermediates` lines 228-240). -/
def trieInsert : TrieNode → List String → String → TrieNode
  | .mk l cs imgs, [], imgName => .mk l cs (imgs ++ [imgName])
  | .mk l cs imgs, layer :: rest, imgName =>
    match lookupA cs layer with
    | some child => .mk l (setA cs layer (trieInsert child rest imgName)) imgs
    | none =>
      .mk l (setA cs layer (trieInsert (.mk layer [] []) rest imgName)) imgs

/-- Build the trie of a base group from the (sorted) image names. -/
def buildTrie (imageNames : List String)
    (images : List (String × ResolvedImage))
    (layers : List (String × Layer)) (globalOrder : List String) : TrieNode :=
  imageNames.foldl
    (fun root imgName =>
      trieInsert root (AbsoluteLayerSequence imgName images layers globalOrder)
        imgName)
    (.mk "" [] [])

/-- Go `sortedKeys`: the sorted child keys of a trie node. -/
def sortedKeysT (cs : List (String × TrieNode)) : List String :=
  sortStrings (keysA cs)

/-- The chain-collapsing loop of `walkTrie` (lines 280-285): follow the
unique child while the node has exactly one child and no terminal images. -/
def collapseChain : Nat → TrieNode → List String → (List String × TrieNode)
  | 0, node, path => (path, node)
  | f + 1, node, path =>
    match node.childrenOf, node.imagesOf with
    | [(layerName, next)], [] => collapseChain f next (path ++ [layerName])
    | _, _ => (path, node)

/-- The fresh-name loop of Go `pickIntermediateName`: starting from the base
name, append -2, -3, ... until the name collides with neither the original
images nor the result map.  The Go loop runs unboundedly; fuel exhaustion
returns `none` (unreachable, since candidate names are unbounded and the
maps finite). -/
def pickFreshAux (baseName : String)
    (result : List (String × ResolvedImage))
    (origImages : List (String × ResolvedImage)) :
    Nat → String → Nat → Option String
  | 0, _, _ => none
  | f + 1, name, suffix =>
    if hasKeyA origImages name then
      pickFreshAux baseName result origImages f
        (baseName ++ "-" ++ toString suffix) (suffix + 1)
    else if hasKeyA result name then
      pickFreshAux baseName result origImages f
        (baseName ++ "-" ++ toString suffix) (suffix + 1)
    else some name

/-- Go `pickIntermediateName`: reuse a single terminal image's name, else
derive a fresh name from the last layer of the chain. -/
def pickIntermediateName (node : TrieNode) (pathLayers : List String)
    (result : List (String × ResolvedImage))
    (origImages : List (String × ResolvedImage)) : Option String :=
  if node.imagesOf.length = 1 then node.imagesOf.head?
  else
    let baseName := pathLayers.getLastD ""
    pickFreshAux baseName result origImages
      (origImages.length + result.length + 2) baseName 2

/-- Go `isExistingImageReusable`: true iff the image exists in the original
configuration (the other parameters are ignored by the source). -/
def isExistingImageReusable (imgName : String)
    (origImages : List (String × ResolvedImage)) : Bool :=
  hasKeyA origImages imgName

/-- Go `addTransitiveDeps`: mark all transitive dependencies of a layer,
skipping excluded or already-marked ones. -/
def addTransitiveDeps (layers : List (String × Layer)) :
    Nat → String → List String → List String → List String
  | 0, _, needed, _ => needed
  | f + 1, layerName, needed, excluded =>
    match lookupA layers layerName with
    | none => needed
    | some ly =>
      ly.Depends.foldl
        (fun nd dep =>
          if excluded.contains dep || nd.contains dep then nd
          else addTransitiveDeps layers f dep (nd ++ [dep]) excluded)
        needed

/-- Go `computeOwnLayers`: the chain's layers minus what the parent already
provides, plus their non-parent-provided transitive dependencies, re-sorted
by the global order (falling back to the unfiltered list when the projection
is empty). -/
def computeOwnLayers (parentName : String) (pathLayers : List String)
    (result : List (String × ResolvedImage))
    (layers : List (String × Layer)) (globalOrder : List String) :
    List String :=
  let parentProvided :=
    match lookupA result parentName with
    | none => ([] : List String)
    | some _ =>
      match LayersProvidedByImage parentName result layers with
      | .ok provided => provided
      | .error _ => []
  let own := pathLayers.filter (fun l => !parentProvided.contains l)
  let needed := own.foldl
    (fun nd l =>
      let nd1 := if nd.contains l then nd else nd ++ [l]
      addTransitiveDeps layers (layers.length + totalDepsLen layers + 1) l nd1
        parentProvided)
    []
  let ordered := globalOrder.filter
    (fun l => needed.contains l && !parentProvided.contains l)
  if ordered = [] then own else ordered

/-- Modelled from the spec: `resolveIntPtr` (not under src/) selects an
override when present, else the default when present, else the fallback
("UID/GID to 1000 unless overridden"). -/
def resolveIntPtr (dflt : Option Int) (override : Option Int)
    (fallback : Int) : Int :=
  match override with
  | some v => v
  | none =>
    match dflt with
    | some v => v
    | none => fallback

/-- Go `resolvePlatforms`: config defaults or the built-in platform pair. -/
def resolvePlatforms (cfg : Config) : List String :=
  if cfg.Defaults.Platforms.length > 0 then cfg.Defaults.Platforms
  else ["linux/amd64", "linux/arm64"]

/-- Go `createIntermediate`: insert an auto-generated intermediate image
into the result map. -/
def createIntermediate (name parentName : String) (pathLayers : List String)
    (result : List (String × ResolvedImage))
    (cfg : Config) (tag : String) (layers : List (String × Layer))
    (globalOrder : List String) : List (String × ResolvedImage) :=
  let ownLayers := computeOwnLayers parentName pathLayers result layers
    globalOrder
  let isExternalBase := !(hasKeyA result parentName)
  let pkg := if cfg.Defaults.Pkg = "" then "rpm" else cfg.Defaults.Pkg
  let user := if cfg.Defaults.User = "" then "user" else cfg.Defaults.User
  let fullTag :=
    if cfg.Defaults.Registry = "" then name ++ ":" ++ tag
    else cfg.Defaults.Registry ++ "/" ++ name ++ ":" ++ tag
  setA result name
    { Name := name, Base := parentName, IsExternalBase := isExternalBase
      Layers := ownLayers, Tag := tag, Registry := cfg.Defaults.Registry
      Pkg := pkg, FullTag := fullTag, Platforms := resolvePlatforms cfg
      User := user, Home := "/home/" ++ user
      UID := resolveIntPtr cfg.Defaults.UID none 1000
      GID := resolveIntPtr cfg.Defaults.GID none 1000
      Merge := cfg.Defaults.Merge, Bootc := false, Auto := true }

/-- Go `updateImageBase`: point an image's Base at the given parent and
reclassify `IsExternalBase` by whether the parent is in the result map. -/
def updateImageBase (imgName parentName : String)
    (result : List (String × ResolvedImage)) :
    List (String × ResolvedImage) :=
  match lookupA result imgName with
  | none => result
  | some img =>
    setA result imgName
      { img with Base := parentName
                 IsExternalBase := !(hasKeyA result parentName) }

/-- Go `assignLayersForIntermediate` is a no-op: a reused image keeps its
original layers; exclusion happens when the build script re-resolves layer
order against the parent's provided set. -/
def assignLayersForIntermediate
    (result : List (String × ResolvedImage)) :
    List (String × ResolvedImage) :=
  result

/-- Go `walkTrie`: walk the trie, creating intermediates at branching points
and rebasing terminal images.  Fuel bounds the recursion depth (the Go
recursion is bounded by the trie depth). -/
def walkTrie (origImages : List (String × ResolvedImage))
    (layers : List (String × Layer)) (cfg : Config) (tag : String)
    (globalOrder : List String) :
    Nat → TrieNode → String → List (String × ResolvedImage) →
    List (String × ResolvedImage)
  | 0, _, _, result => result
  | f + 1, node, parentName, result =>
    (sortedKeysT node.childrenOf).foldl
      (fun res childKey =>
        match lookupA node.childrenOf childKey with
        | none => res
        | some child =>
          let pc := collapseChain (f + 1) child [childKey]
          let pathLayers := pc.1
          let current := pc.2
          let isBranch := 2 ≤ current.childrenOf.length ∨
            (1 ≤ current.childrenOf.length ∧ 0 < current.imagesOf.length)
          let isLeaf := current.childrenOf.length = 0
          if isBranch then
            match pickIntermediateName current pathLayers res origImages with
            | none => res
            | some intermediateName =>
              if current.imagesOf.length = 1 ∧
                  ¬ isExistingImageReusable (current.imagesOf.headD "")
                    origImages then
                let res1 := createIntermediate intermediateName parentName
                  pathLayers res cfg tag layers globalOrder
                let res2 := updateImageBase (current.imagesOf.headD "")
                  intermediateName res1
                walkTrie origImages layers cfg tag globalOrder f current
                  intermediateName res2
              else if current.imagesOf.length = 1 then
                let iname := current.imagesOf.headD ""
                let res1 := updateImageBase iname parentName res
                let res2 := assignLayersForIntermediate res1
                walkTrie origImages layers cfg tag globalOrder f current
                  iname res2
              else if 1 < current.imagesOf.length then
                let res1 := createIntermediate intermediateName parentName
                  pathLayers res cfg tag layers globalOrder
                let res2 := current.imagesOf.foldl
                  (fun r i => updateImageBase i intermediateName r) res1
                walkTrie origImages layers cfg tag globalOrder f current
                  intermediateName res2
              else
                let res1 := createIntermediate intermediateName parentName
                  pathLayers res cfg tag layers globalOrder
                walkTrie origImages layers cfg tag globalOrder f current
                  intermediateName res1
          else if isLeaf then
            current.imagesOf.foldl (fun r i => updateImageBase i parentName r)
              res
          else res)
      result

/-- The `baseGroups` construction of `ComputeIntermediates` (lines 197-204):
partition image names by their ultimate external base. -/
def baseGroups (images : List (String × ResolvedImage)) :
    List (String × List String) :=
  images.foldl
    (fun groups p =>
      let extBase := resolveExternalBase p.1 images
      setA groups extBase ((lookupA groups extBase).getD [] ++ [p.1]))
    []

/-- Fuel ample for one group's trie walk: one more than the total length of
all inserted sequences. -/
def walkFuelFor (imageNames : List String)
    (images : List (String × ResolvedImage))
    (layers : List (String × Layer)) (globalOrder : List String) : Nat :=
  1 + (imageNames.map
    (fun n => (AbsoluteLayerSequence n images layers globalOrder).length + 1)).sum

/-- Go `ComputeIntermediates`.  The Go source iterates the `baseGroups` map
directly (`for _, imageNames := range baseGroups`), whose order Go does not
specify; the embedding makes that iteration order an explicit `keyOrder`
argument (intended to be instantiated with an enumeration of the group
keys). -/
def ComputeIntermediates (keyOrder : List String)
    (images : List (String × ResolvedImage))
    (layers : List (String × Layer)) (cfg : Config) (tag : String) :
    Except String (List (String × ResolvedImage)) :=
  let groups := baseGroups images
  match GlobalLayerOrder images layers with
  | .error e => .error ("computing global layer order: " ++ e)
  | .ok globalOrder =>
    .ok (keyOrder.foldl
      (fun result key =>
        match lookupA groups key with
        | none => result
        | some names0 =>
          let imageNames := sortStrings names0
          if imageNames.length ≤ 1 then result
          else
            let root := buildTrie imageNames images layers globalOrder
            let rootImageName := (imageNames.find?
              (fun n =>
                match lookupA images n with
                | some img => img.Layers.length = 0
                | none => false)).getD ""
            let startParent :=
              if rootImageName = "" then
                resolveExternalBase (imageNames.headD "") images
              else rootImageName
            walkTrie images layers cfg tag globalOrder
              (walkFuelFor imageNames images layers globalOrder) root
              startParent result)
      images)

/-- Two resolved images agree on every field other than `Base` and
`IsExternalBase`. -/
def sameFrame (a b : ResolvedImage) : Prop :=
  a.Name = b.Name ∧ a.Layers = b.Layers ∧ a.Tag = b.Tag ∧
  a.Registry = b.Registry ∧ a.Pkg = b.Pkg ∧ a.FullTag = b.FullTag ∧
  a.Platforms = b.Platforms ∧ a.User = b.User ∧ a.Home = b.Home ∧
  a.UID = b.UID ∧ a.GID = b.GID ∧ a.Merge = b.Merge ∧ a.Bootc = b.Bootc ∧
  a.Auto = b.Auto

/-- The frame property of `ComputeIntermediates`: every input key survives,
every input image is unchanged outside `Base`/`IsExternalBase`, and every
key added beyond the input is an auto image. -/
structure FrameOK (images result : List (String × ResolvedImage)) : Prop
    where
  keys : ∀ k ∈ keysA images, k ∈ keysA result
  pres : ∀ k img0, lookupA images k = some img0 →
    ∃ img, lookupA result k = some img ∧ sameFrame img img0
  auto : ∀ k img, lookupA result k = some img → k ∉ keysA images →
    img.Auto = true

/-- Internal-base soundness of an image map: an image not flagged as
external has its base inside the map. -/
def InternalBaseSound (m : List (String × ResolvedImage)) : Prop :=
  ∀ k img, lookupA m k = some img → img.IsExternalBase = false →
    img.Base ∈ keysA m

/-- Modelled from the spec: a merge-plan step (the `Keep`/`Layers` record
the tests of merge_test.go inspect): either preserve one layer as-is or
merge a contiguous run of layer indices. -/
structure MergeStep where
  Keep : Bool
  Layers : List Nat
deriving DecidableEq, Repr

/-- Flush the accumulator as a step: merge if it holds at least two layers,
keep if exactly one, nothing if empty. -/
def flushAcc (accIdx : List Nat) (steps : List MergeStep) : List MergeStep :=
  match accIdx with
  | [] => steps
  | [j] => steps ++ [{ Keep := true, Layers := [j] }]
  | _ => steps ++ [{ Keep := false, Layers := accIdx }]

/-- Modelled from the spec: the single left-to-right scan of the merge
planner (section 4.7): grow the accumulator while the running sum stays
within the cap, otherwise flush and restart. -/
def planMergeAux (maxBytes : Int) :
    List (Nat × Int) → List Nat → Int → List MergeStep → List MergeStep
  | [], accIdx, _, steps => flushAcc accIdx steps
  | (i, s) :: rest, accIdx, accSum, steps =>
    if accIdx = [] then planMergeAux maxBytes rest [i] s steps
    else if accSum + s ≤ maxBytes then
      planMergeAux maxBytes rest (accIdx ++ [i]) (accSum + s) steps
    else planMergeAux maxBytes rest [i] s (flushAcc accIdx steps)

/-- Modelled from the spec: `planMerge` (merge.go is not under src/; the
algorithm is section 4.7 of the spec, and its behaviour is pinned by the
four planner tests of merge_test.go, reproduced below). -/
def planMerge (sizes : List Int) (maxBytes : Int) : List MergeStep :=
  planMergeAux maxBytes sizes.enum [] 0 []

/-- One megabyte, as in the tests. -/
def mb : Int := 1024 * 1024

example :
    planMerge [10 * mb, 20 * mb, 30 * mb, 15 * mb] (1024 * mb) =
      [{ Keep := false, Layers := [0, 1, 2, 3] }] := by rfl

example :
    planMerge [40 * mb, 40 * mb, 40 * mb, 40 * mb] (100 * mb) =
      [{ Keep := false, Layers := [0, 1] },
       { Keep := false, Layers := [2, 3] }] := by rfl

example :
    planMerge [10 * mb, 300 * mb, 20 * mb] (256 * mb) =
      [{ Keep := true, Layers := [0] }, { Keep := true, Layers := [1] },
       { Keep := true, Layers := [2] }] := by rfl

example :
    planMerge [50 * mb, 50 * mb, 50 * mb, 200 * mb, 30 * mb, 30 * mb]
      (200 * mb) =
      [{ Keep := false, Layers := [0, 1, 2] },
       { Keep := true, Layers := [3] },
       { Keep := false, Layers := [4, 5] }] := by rfl

/-- Defaults record used by the concrete scenarios (registry `r`, rpm). -/
def defaultsR : ImageConfig :=
  { Base := "", Layers := [], Tag := "", Registry := "r", Pkg := "rpm"
    Platforms := [], User := "", UID := none, GID := none, Merge := false
    Builder := "" }

/-- Concrete config for the scenarios. -/
def cfgR : Config := { Defaults := defaultsR, Images := [] }

/-- The layer tree of the spec's shared-prefix scenario:
pixi <- python <- supervisord <- (testapi, openclaw). -/
def sharedLayers : List (String × Layer) :=
  [("pixi", mkLayer "pixi" []), ("python", mkLayer "python" ["pixi"]),
   ("supervisord", mkLayer "supervisord" ["python"]),
   ("testapi", mkLayer "testapi" ["supervisord"]),
   ("openclaw", mkLayer "openclaw" ["supervisord"])]

/-- The image fleet of the spec's shared-prefix scenario. -/
def sharedImages : List (String × ResolvedImage) :=
  [("fedora", mkImage "fedora" "ext:1" true []),
   ("fedora-test", mkImage "fedora-test" "fedora" false ["testapi"]),
   ("openclaw", mkImage "openclaw" "fedora" false ["openclaw"])]

/-- The result of `ComputeIntermediates` on the shared-prefix scenario:
the auto-intermediate "supervisord" is inserted and both user images are
rebased onto it. -/
def sharedResult : List (String × ResolvedImage) :=
  [("fedora", mkImage "fedora" "ext:1" true []),
   ("fedora-test",
     { mkImage "fedora-test" "fedora" false ["testapi"] with
         Base := "supervisord", IsExternalBase := false }),
   ("openclaw",
     { mkImage "openclaw" "fedora" false ["openclaw"] with
         Base := "supervisord", IsExternalBase := false }),
   ("supervisord",
     { Name := "supervisord", Base := "fedora", IsExternalBase := false
       Layers := ["pixi", "python", "supervisord"], Tag := "v1"
       Registry := "r", Pkg := "rpm", FullTag := "r/supervisord:v1"
       Platforms := ["linux/amd64", "linux/arm64"], User := "user"
       Home := "/home/user", UID := 1000, GID := 1000, Merge := false
       Bootc := false, Auto := true })]

/-- Layers for the C7 counterexample: four independent layers, one of which
("shared") carries the same name as image x's external base reference. -/
def c7Layers : List (String × Layer) :=
  [("shared", mkLayer "shared" []), ("la1", mkLayer "la1" []),
   ("la2", mkLayer "la2" []), ("lx", mkLayer "lx" [])]

/-- Images for the C7 counterexample: a1 and a2 share the external base
"ext:a" and the layer prefix [shared]; x sits on the external base
"shared", a reference that no image name matches in the input. -/
def c7Images : List (String × ResolvedImage) :=
  [("a1", mkImage "a1" "ext:a" true ["shared", "la1"]),
   ("a2", mkImage "a2" "ext:a" true ["shared", "la2"]),
   ("x", mkImage "x" "shared" true ["lx"])]

/-- C6: on the shared-prefix scenario (layers pixi <- python <- supervisord
<- (testapi, openclaw); images fedora (no own layers, external base),
fedora-test on fedora with [testapi], openclaw on fedora with [openclaw]),
`ComputeIntermediates` creates at least one image with Auto=true, and in the
result neither fedora-test nor openclaw has Base equal to "fedora".  (The
single base group has key "ext:1", so the group iteration order is the
singleton list.) -/
theorem sharedPrefix_creates_intermediate :
    ∃ result,
      ComputeIntermediates ["ext:1"] sharedImages sharedLayers cfgR "v1" =
        Except.ok result ∧
      result.any (fun p => p.2.Auto) = true ∧
      (∃ img, lookupA result "fedora-test" = some img ∧ img.Base ≠ "fedora") ∧
      (∃ img, lookupA result "openclaw" = some img ∧ img.Base ≠ "fedora") := by
  refine ⟨_, rfl, rfl, ⟨_, rfl, ?_⟩, ⟨_, rfl, ?_⟩⟩ <;> decide

/-- A plan step is admissible for `sizes` and `maxBytes`: either a keep of
exactly one layer, or a merge of at least two layers whose sizes sum to at
most the cap. -/
def stepOk (sizes : List Int) (maxBytes : Int) (step : MergeStep) : Prop :=
  (step.Keep = true ∧ step.Layers.length = 1) ∨
  (step.Keep = false ∧ 2 ≤ step.Layers.length ∧
    (step.Layers.map (fun i => sizes.getD i 0)).sum ≤ maxBytes)

theorem flushAcc_ok (sizes : List Int) (maxBytes : Int) (accIdx : List Nat)
    (steps : List MergeStep)
    (hacc : 2 ≤ accIdx.length →
      (accIdx.map (fun i => sizes.getD i 0)).sum ≤ maxBytes)
    (hsteps : ∀ st ∈ steps, stepOk sizes maxBytes st) :
    ∀ st ∈ flushAcc accIdx steps, stepOk sizes maxBytes st := by
  intro st hst
  match accIdx with
  | [] => exact hsteps st hst
  | [j] =>
    simp only [flushAcc, List.mem_append, List.mem_singleton] at hst
    rcases hst with h | h
    · exact hsteps st h
    · subst h
      exact Or.inl ⟨rfl, rfl⟩
  | j :: k :: t =>
    simp only [flushAcc, List.mem_append, List.mem_singleton] at hst
    rcases hst with h | h
    · exact hsteps st h
    · subst h
      refine Or.inr ⟨rfl, by simp, ?_⟩
      exact hacc (by simp)

theorem planMergeAux_ok (sizes : List Int) (maxBytes : Int)
    (pending : List (Nat × Int)) (accIdx : List Nat) (accSum : Int)
    (steps : List MergeStep)
    (hpend : ∀ p ∈ pending, sizes.getD p.1 0 = p.2)
    (hsum : accSum = (accIdx.map (fun i => sizes.getD i 0)).sum)
    (hacc : 2 ≤ accIdx.length → accSum ≤ maxBytes)
    (hsteps : ∀ st ∈ steps, stepOk sizes maxBytes st) :
    ∀ st ∈ planMergeAux maxBytes pending accIdx accSum steps,
      stepOk sizes maxBytes st := by
  induction pending generalizing accIdx accSum steps with
  | nil =>
    intro st hst
    exact flushAcc_ok sizes maxBytes accIdx steps
      (fun h2 => hsum ▸ hacc h2) hsteps st hst
  | cons p rest ih =>
    obtain ⟨i, s⟩ := p
    have hsi : sizes.getD i 0 = s := hpend (i, s) (by simp)
    have hpend1 : ∀ q ∈ rest, sizes.getD q.1 0 = q.2 := by
      intro q hq
      exact hpend q (by simp [hq])
    by_cases hempty : accIdx = ([] : List Nat)
    · subst hempty
      simp only [planMergeAux, if_pos rfl]
      exact ih [i] s steps hpend1
        (by simp [List.getD] at hsi; simp [hsi]) (by simp) hsteps
    · by_cases hle : accSum + s ≤ maxBytes
      · simp only [planMergeAux, if_neg hempty, if_pos hle]
        refine ih (accIdx ++ [i]) (accSum + s) steps hpend1 ?_ ?_ hsteps
        · simp [List.getD] at hsi
          simp [hsum, hsi]
        · intro _
          exact hle
      · simp only [planMergeAux, if_neg hempty, if_neg hle]
        refine ih [i] s (flushAcc accIdx steps) hpend1
          (by simp [List.getD] at hsi; simp [hsi]) (by simp) ?_
        exact flushAcc_ok sizes maxBytes accIdx steps
          (fun h2 => hsum ▸ hacc h2) hsteps

theorem planMergeAux_mono (maxBytes : Int) (pending : List (Nat × Int))
    (accIdx : List Nat) (accSum : Int) (steps : List MergeStep)
    (st : MergeStep) (hst : st ∈ steps) :
    st ∈ planMergeAux maxBytes pending accIdx accSum steps := by
  induction pending generalizing accIdx accSum steps with
  | nil =>
    match accIdx with
    | [] => exact hst
    | [j] => simp [planMergeAux, flushAcc, hst]
    | j :: k :: t => simp [planMergeAux, flushAcc, hst]
  | cons p rest ih =>
    obtain ⟨i, s⟩ := p
    by_cases hempty : accIdx = ([] : List Nat)
    · subst hempty
      simp only [planMergeAux, if_pos rfl]
      exact ih [i] s steps hst
    · by_cases hle : accSum + s ≤ maxBytes
      · simp only [planMergeAux, if_neg hempty, if_pos hle]
        exact ih (accIdx ++ [i]) (accSum + s) steps hst
      · simp only [planMergeAux, if_neg hempty, if_neg hle]
        refine ih [i] s (flushAcc accIdx steps) ?_
        match accIdx with
        | [] => exact hst
        | [j] => simp [flushAcc, hst]
        | j :: k :: t => simp [flushAcc, hst]

theorem planMergeAux_big_alone (maxBytes : Int)
    (pending : List (Nat × Int)) (i : Nat) (s : Int)
    (steps : List MergeStep)
    (hnn : ∀ p ∈ pending, 0 ≤ p.2) (hbig : maxBytes < s) :
    { Keep := true, Layers := [i] } ∈
      planMergeAux maxBytes pending [i] s steps := by
  cases pending with
  | nil => simp [planMergeAux, flushAcc]
  | cons q rest =>
    obtain ⟨j, u⟩ := q
    have hu : 0 ≤ u := hnn (j, u) (by simp)
    have hgt : ¬ (s + u ≤ maxBytes) := by omega
    have hne : ([i] : List Nat) ≠ [] := by simp
    simp only [planMergeAux, if_neg hne, if_neg hgt]
    refine planMergeAux_mono maxBytes rest [j] u (flushAcc [i] steps) _ ?_
    simp [flushAcc]

theorem planMergeAux_reaches_big (maxBytes : Int)
    (pending : List (Nat × Int)) (accIdx : List Nat) (accSum : Int)
    (steps : List MergeStep) (i : Nat) (s : Int)
    (hmem : (i, s) ∈ pending) (hbig : maxBytes < s)
    (hnn : ∀ p ∈ pending, 0 ≤ p.2) (haccnn : 0 ≤ accSum) :
    { Keep := true, Layers := [i] } ∈
      planMergeAux maxBytes pending accIdx accSum steps := by
  induction pending generalizing accIdx accSum steps with
  | nil => cases hmem
  | cons q rest ih =>
    obtain ⟨j, u⟩ := q
    have hu : 0 ≤ u := hnn (j, u) (by simp)
    have hnnrest : ∀ p ∈ rest, 0 ≤ p.2 := fun p hp => hnn p (by simp [hp])
    rcases List.mem_cons.mp hmem with hhead | htail
    · obtain ⟨hij, hsu⟩ := Prod.mk.injEq .. ▸ hhead
      subst hij
      subst hsu
      by_cases hempty : accIdx = ([] : List Nat)
      · subst hempty
        simp only [planMergeAux, if_pos rfl]
        exact planMergeAux_big_alone maxBytes rest i s steps hnnrest hbig
      · have hgt : ¬ (accSum + s ≤ maxBytes) := by omega
        simp only [planMergeAux, if_neg hempty, if_neg hgt]
        exact planMergeAux_big_alone maxBytes rest i s (flushAcc accIdx steps)
          hnnrest hbig
    · by_cases hempty : accIdx = ([] : List Nat)
      · subst hempty
        simp only [planMergeAux, if_pos rfl]
        exact ih [j] u steps htail hnnrest hu
      · by_cases hle : accSum + u ≤ maxBytes
        · simp only [planMergeAux, if_neg hempty, if_pos hle]
          exact ih (accIdx ++ [j]) (accSum + u) steps htail hnnrest (by omega)
        · simp only [planMergeAux, if_neg hempty, if_neg hle]
          exact ih [j] u (flushAcc accIdx steps) htail hnnrest hu

/-- C10: for every input size list (of nonnegative byte sizes) and cap,
every step of the merge plan is either a keep step covering exactly one
layer, or a merge step whose constituent layer sizes sum to at most
`maxBytes`; and any single layer larger than `maxBytes` appears as its own
keep step. -/
theorem planMerge_size_bound (sizes : List Int) (maxBytes : Int)
    (hnn : ∀ s ∈ sizes, 0 ≤ s) :
    (∀ st ∈ planMerge sizes maxBytes, stepOk sizes maxBytes st) ∧
    (∀ i, i < sizes.length → maxBytes < sizes.getD i 0 →
      { Keep := true, Layers := [i] } ∈ planMerge sizes maxBytes) := by
  constructor
  · intro st hst
    refine planMergeAux_ok sizes maxBytes sizes.enum [] 0 [] ?_ (by simp)
      (by simp) (by simp) st hst
    intro p hp
    have hg : sizes[p.1]? = some p.2 := by
      have := List.mem_enum_iff_getElem?.mp hp
      simpa using this
    simp [List.getD, hg]
  · intro i hi hbig
    refine planMergeAux_reaches_big maxBytes sizes.enum [] 0 [] i
      (sizes.getD i 0) ?_ hbig ?_ le_rfl
    · have hg : sizes[i]? = some (sizes.getD i 0) := by
        rw [List.getElem?_eq_getElem hi]
        simp [List.getD, List.getElem?_eq_getElem hi]
      exact List.mem_enum_iff_getElem?.mpr (by simpa using hg)
    · intro p hp
      have hg : sizes[p.1]? = some p.2 := by
        have := List.mem_enum_iff_getElem?.mp hp
        simpa using this
      have hmem : p.2 ∈ sizes := List.getElem?_mem hg
      exact hnn p.2 hmem

/-- Witness for C10 at the concrete sizes of the large-layer-alone test:
the 300 MB layer exceeds the 256 MB cap and appears as its own keep step,
and every step of the plan is admissible. -/
theorem planMerge_size_bound_witness :
    (∀ s ∈ [10 * mb, 300 * mb, 20 * mb], (0 : Int) ≤ s) ∧
    (∀ st ∈ planMerge [10 * mb, 300 * mb, 20 * mb] (256 * mb),
      stepOk [10 * mb, 300 * mb, 20 * mb] (256 * mb) st) ∧
    { Keep := true, Layers := [1] } ∈
      planMerge [10 * mb, 300 * mb, 20 * mb] (256 * mb) :=
  ⟨by decide,
   (planMerge_size_bound [10 * mb, 300 * mb, 20 * mb] (256 * mb)
     (by decide)).1,
   (planMerge_size_bound [10 * mb, 300 * mb, 20 * mb] (256 * mb)
     (by decide)).2 1 (by decide) (by decide)⟩

/-- Layers for the C1 counterexample: three independent layers. -/
def c1Layers : List (String × Layer) :=
  [("shared", mkLayer "shared" []), ("la", mkLayer "la" []),
   ("lb", mkLayer "lb" [])]

/-- Images for the C1 counterexample: two siblings whose own-layer lists
both start with the shared layer. -/
def c1Images : List (String × ResolvedImage) :=
  [("img1", mkImage "img1" "ext:1" true ["shared", "la"]),
   ("img2", mkImage "img2" "ext:1" true ["shared", "lb"])]

/-- C1 counterexample: after `ComputeIntermediates` on `c1Images`, the user
image img1 has the auto-intermediate "shared" as its base, yet its own-layer
list still contains the layer "shared", which the base transitively
provides.  `updateImageBase` only rewrites `Base`, and
`assignLayersForIntermediate` is a no-op, so rebased user images keep their
original layer lists. -/
theorem rebased_image_keeps_provided_layer :
    ∃ result img1 provided,
      ComputeIntermediates ["ext:1"] c1Images c1Layers cfgR "v1" =
        Except.ok result ∧
      lookupA result "img1" = some img1 ∧
      img1.Base = "shared" ∧
      LayersProvidedByImage "shared" result c1Layers =
        Except.ok provided ∧
      "shared" ∈ img1.Layers ∧ "shared" ∈ provided := by
  refine ⟨_, _, _, rfl, rfl, rfl, rfl, ?_, ?_⟩ <;> decide

/-- C1 amended: whenever the parent exists in the result map and its
provided set resolves, `computeOwnLayers` (the own-layer list given to every
auto-created intermediate) is disjoint from that provided set. -/
theorem computeOwnLayers_disjoint_from_parent (parentName : String)
    (pathLayers : List String) (result : List (String × ResolvedImage))
    (layers : List (String × Layer)) (globalOrder : List String)
    (pImg : ResolvedImage) (provided : List String)
    (hp : lookupA result parentName = some pImg)
    (hprov : LayersProvidedByImage parentName result layers =
      Except.ok provided) :
    ∀ l ∈ computeOwnLayers parentName pathLayers result layers globalOrder,
      l ∉ provided := by
  intro l hl
  unfold computeOwnLayers at hl
  rw [hp, hprov] at hl
  simp only at hl
  split at hl
  · have h2 := (List.mem_filter.mp hl).2
    simpa using h2
  · have h2 := (List.mem_filter.mp hl).2
    have h3 : (!provided.contains l) = true := by
      have hb := (Bool.and_eq_true _ _).mp h2
      exact hb.2
    simpa using h3

/-- Witness for the amended C1 theorem at a concrete parent: the parent
provides layer x, and the computed own layers of a child chain [x, y]
avoid x. -/
theorem computeOwnLayers_disjoint_witness :
    lookupA [("p", mkImage "p" "ext" true ["x"])] "p" =
      some (mkImage "p" "ext" true ["x"]) ∧
    LayersProvidedByImage "p" [("p", mkImage "p" "ext" true ["x"])]
      [("x", mkLayer "x" []), ("y", mkLayer "y" [])] = Except.ok ["x"] ∧
    ∀ l ∈ computeOwnLayers "p" ["x", "y"]
        [("p", mkImage "p" "ext" true ["x"])]
        [("x", mkLayer "x" []), ("y", mkLayer "y" [])] ["x", "y"],
      l ∉ ["x"] :=
  ⟨rfl, rfl,
   computeOwnLayers_disjoint_from_parent "p" ["x", "y"]
     [("p", mkImage "p" "ext" true ["x"])]
     [("x", mkLayer "x" []), ("y", mkLayer "y" [])] ["x", "y"]
     (mkImage "p" "ext" true ["x"]) ["x"] rfl rfl⟩

/-- Layers for the C2 determinism counterexample: one layer shared by all
four images, plus one private layer per image. -/
def c2Layers : List (String × Layer) :=
  [("shared", mkLayer "shared" []), ("la1", mkLayer "la1" []),
   ("la2", mkLayer "la2" []), ("lb1", mkLayer "lb1" []),
   ("lb2", mkLayer "lb2" [])]

/-- Images for the C2 determinism counterexample: two base groups (external
bases ext:a and ext:b), each of whose branch chain ends at the layer
"shared", so both groups want an auto-intermediate named "shared". -/
def c2Images : List (String × ResolvedImage) :=
  [("a1", mkImage "a1" "ext:a" true ["shared", "la1"]),
   ("a2", mkImage "a2" "ext:a" true ["shared", "la2"]),
   ("b1", mkImage "b1" "ext:b" true ["shared", "lb1"]),
   ("b2", mkImage "b2" "ext:b" true ["shared", "lb2"])]

/-- C2: `ComputeIntermediates` is NOT invariant under the iteration order of
the `baseGroups` map (which Go leaves unspecified and the source does not
sort): processing the two groups of `c2Images` in the two possible orders
yields different results — image a1 is rebased onto "shared" in one order
and onto "shared-2" in the other, because `pickIntermediateName` consults
the result map that the previously processed group already extended. -/
theorem computeIntermediates_groupOrder_dependent :
    keysA (baseGroups c2Images) = ["ext:a", "ext:b"] ∧
    ((ComputeIntermediates ["ext:a", "ext:b"] c2Images c2Layers cfgR
        "v1").toOption.bind
      (fun r => (lookupA r "a1").map (fun i => i.Base))) = some "shared" ∧
    ((ComputeIntermediates ["ext:b", "ext:a"] c2Images c2Layers cfgR
        "v1").toOption.bind
      (fun r => (lookupA r "a1").map (fun i => i.Base))) = some "shared-2" ∧
    (ComputeIntermediates ["ext:a", "ext:b"] c2Images c2Layers cfgR
      "v1").toOption ≠
    (ComputeIntermediates ["ext:b", "ext:a"] c2Images c2Layers cfgR
      "v1").toOption := by
  refine ⟨rfl, rfl, rfl, ?_⟩
  decide

/-- Dependencies of a node in the restricted graph. -/
def depsOf (g : List (String × List String)) (n : String) : List String :=
  (lookupA g n).getD []

/-- A nonempty dependency path in a graph: `DepPath g u v` holds when `v`
transitively depends on `u` through one or more `Depends` edges (each edge
read off a node's adjacency list). -/
inductive DepPath (g : List (String × List String)) : String → String → Prop
  | edge : ∀ u v, u ∈ depsOf g v → DepPath g u v
  | cons : ∀ u v w, DepPath g u v → v ∈ depsOf g w → DepPath g u w

/-- The dependency graph has a cycle: some node transitively depends on
itself. -/
def HasCycle (g : List (String × List String)) : Prop :=
  ∃ n, DepPath g n n

/-- The dependencies of `n` not yet emitted (what Go's `inDegree[n]`
counts, with multiplicity). -/
def remainingDeps (g : List (String × List String)) (emitted : List String)
    (n : String) : List String :=
  (depsOf g n).filter (fun d => !(emitted.contains d))

/-- The zero-in-degree frontier after emitting `emitted`, in graph order. -/
def frontierL (g : List (String × List String)) (emitted : List String) :
    List String :=
  (g.filter (fun p =>
    !(emitted.contains p.1) &&
      (p.2.filter (fun d => !(emitted.contains d))).isEmpty)).map (·.1)

/-- A zero-in-degree candidate: an unemitted graph node all of whose
dependencies are emitted. -/
def isCandidate (g : List (String × List String)) (emitted : List String)
    (c : String) : Prop :=
  c ∈ keysA g ∧ c ∉ emitted ∧ ∀ d ∈ depsOf g c, d ∈ emitted

/-- Topological soundness of an emission sequence: every emitted node's
dependencies were emitted strictly earlier. -/
def SoundEmit (g : List (String × List String)) (e : List String) : Prop :=
  ∀ i (hi : i < e.length), ∀ d ∈ depsOf g (e.get ⟨i, hi⟩), d ∈ e.take i

theorem lookupA_eq_of_mem_nodup {α : Type} {g : List (String × α)}
    {k : String} {v : α} (hmem : (k, v) ∈ g) (hnd : (keysA g).Nodup) :
    lookupA g k = some v := by
  induction g with
  | nil => cases hmem
  | cons p t ih =>
    obtain ⟨k1, v1⟩ := p
    simp only [keysA, List.map, List.nodup_cons] at hnd
    rcases List.mem_cons.mp hmem with h | h
    · obtain ⟨hk, hv⟩ := Prod.mk.injEq .. ▸ h
      subst hk
      subst hv
      simp [lookupA]
    · have hk1 : k1 ≠ k := by
        intro he
        subst he
        exact hnd.1 (by simpa [keysA] using List.mem_map_of_mem Prod.fst h)
      simp only [lookupA, if_neg hk1]
      exact ih h (by simpa [keysA] using hnd.2)

theorem mem_of_lookupA_eq_some {α : Type} {g : List (String × α)}
    {k : String} {v : α} (h : lookupA g k = some v) : (k, v) ∈ g := by
  induction g with
  | nil => cases h
  | cons p t ih =>
    obtain ⟨k1, v1⟩ := p
    by_cases hk : k1 = k
    · subst hk
      simp only [lookupA, if_pos] at h
      have hv : v1 = v := by simpa using h
      subst hv
      exact List.mem_cons_self _ _
    · simp only [lookupA, if_neg hk] at h
      exact List.mem_cons_of_mem _ (ih h)

theorem frontierL_nodup (g : List (String × List String))
    (emitted : List String) (hnd : (keysA g).Nodup) :
    (frontierL g emitted).Nodup := by
  have hsub : (frontierL g emitted).Sublist (keysA g) :=
    (List.filter_sublist g).map Prod.fst
  exact hnd.sublist hsub

theorem mem_frontierL (g : List (String × List String))
    (emitted : List String) (c : String) (hnd : (keysA g).Nodup) :
    c ∈ frontierL g emitted ↔ isCandidate g emitted c := by
  constructor
  · intro hc
    obtain ⟨p, hp, hpc⟩ := List.mem_map.mp hc
    obtain ⟨hpg, hcond⟩ := List.mem_filter.mp hp
    obtain ⟨k, deps⟩ := p
    subst hpc
    have hlk : lookupA g k = some deps := lookupA_eq_of_mem_nodup hpg hnd
    have hdeps : depsOf g k = deps := by simp [depsOf, hlk]
    simp only [Bool.and_eq_true, Bool.not_eq_true'] at hcond
    refine ⟨?_, ?_, ?_⟩
    · exact List.mem_map_of_mem Prod.fst hpg
    · simpa using hcond.1
    · intro d hd
      have hempty := hcond.2
      rw [List.isEmpty_iff] at hempty
      by_contra hdm
      have : d ∈ deps.filter (fun d => !(emitted.contains d)) :=
        List.mem_filter.mpr ⟨hdeps ▸ hd, by simpa using hdm⟩
      rw [hempty] at this
      cases this
  · rintro ⟨hk, hce, hdeps⟩
    obtain ⟨v, hv⟩ := Option.isSome_iff_exists.mp
      ((lookupA_isSome_iff_mem_keys g c).mpr hk)
    have hmem : (c, v) ∈ g := mem_of_lookupA_eq_some hv
    refine List.mem_map.mpr ⟨(c, v), List.mem_filter.mpr ⟨hmem, ?_⟩, rfl⟩
    simp only [Bool.and_eq_true, Bool.not_eq_true']
    refine ⟨by simpa using hce, ?_⟩
    rw [List.isEmpty_iff, List.filter_eq_nil_iff]
    intro d hd
    have : d ∈ depsOf g c := by simp [depsOf, hv, hd]
    simpa using hdeps d this

theorem decBatch_lookup_some (ds : List String)
    (inDeg : List (String × Int)) (adds : List String) (k : String)
    (hk : (lookupA inDeg k).isSome) :
    lookupA ((ds.foldl decQueueStep (inDeg, adds)).1) k =
      some ((lookupA inDeg k).getD 0 - ds.count k) := by
  induction ds generalizing inDeg adds with
  | nil =>
    obtain ⟨v, hv⟩ := Option.isSome_iff_exists.mp hk
    simp [hv]
  | cons d rest ih =>
    simp only [List.foldl_cons]
    by_cases hdk : d = k
    · subst hdk
      obtain ⟨v, hv⟩ := Option.isSome_iff_exists.mp hk
      have hstep :
          decQueueStep (inDeg, adds) d =
            (setA inDeg d (v - 1),
             if v - 1 = 0 then adds ++ [d] else adds) := by
        simp [decQueueStep, hv]
      rw [hstep]
      have hk1 : (lookupA (setA inDeg d (v - 1)) d).isSome := by
        simp [lookupA_setA_self]
      rw [ih _ _ hk1]
      simp [lookupA_setA_self, hv, List.count_cons]
      omega
    · have hne : ¬ (d = k) := hdk
      have hstep : (decQueueStep (inDeg, adds) d).1 =
          setA inDeg d ((lookupA inDeg d).getD 0 - 1) := by
        simp [decQueueStep]
      have hk1 : (lookupA (decQueueStep (inDeg, adds) d).1 k).isSome := by
        rw [hstep, lookupA_setA_ne _ _ _ _ hne]
        exact hk
      have heq : lookupA (decQueueStep (inDeg, adds) d).1 k =
          lookupA inDeg k := by
        rw [hstep, lookupA_setA_ne _ _ _ _ hne]
      rcases hsplit : decQueueStep (inDeg, adds) d with ⟨inDeg1, adds1⟩
      rw [hsplit] at hk1 heq
      rw [ih inDeg1 adds1 hk1, heq]
      have hcnt : (d :: rest).count k = rest.count k := by
        simp [List.count_cons, hne]
      rw [hcnt]

theorem decBatch_lookup_none (ds : List String)
    (inDeg : List (String × Int)) (adds : List String) (k : String)
    (hk : lookupA inDeg k = none) (hkds : k ∉ ds) :
    lookupA ((ds.foldl decQueueStep (inDeg, adds)).1) k = none := by
  induction ds generalizing inDeg adds with
  | nil => simpa using hk
  | cons d rest ih =>
    have hdk : d ≠ k := fun h => hkds (h ▸ List.mem_cons_self d rest)
    simp only [List.foldl_cons]
    rcases hsplit : decQueueStep (inDeg, adds) d with ⟨inDeg1, adds1⟩
    have hk1 : lookupA inDeg1 k = none := by
      have : inDeg1 = setA inDeg d ((lookupA inDeg d).getD 0 - 1) := by
        have := congrArg Prod.fst hsplit
        simpa [decQueueStep] using this.symm
      rw [this, lookupA_setA_ne _ _ _ _ hdk]
      exact hk
    exact ih inDeg1 adds1 hk1 (fun h => hkds (List.mem_cons_of_mem _ h))

theorem decBatch_adds_mem (ds : List String)
    (inDeg : List (String × Int)) (adds : List String)
    (hsome : ∀ d ∈ ds, (lookupA inDeg d).isSome)
    (hle : ∀ d ∈ ds, (ds.count d : Int) ≤ (lookupA inDeg d).getD 0) :
    ∀ m, m ∈ (ds.foldl decQueueStep (inDeg, adds)).2 ↔
      m ∈ adds ∨
        (m ∈ ds ∧ (lookupA inDeg m).getD 0 = (ds.count m : Int)) := by
  induction ds generalizing inDeg adds with
  | nil => simp
  | cons d rest ih =>
    intro m
    obtain ⟨v, hv⟩ := Option.isSome_iff_exists.mp (hsome d (by simp))
    have hstep :
        decQueueStep (inDeg, adds) d =
          (setA inDeg d (v - 1),
           if v - 1 = 0 then adds ++ [d] else adds) := by
      simp [decQueueStep, hv]
    have hsome1 : ∀ e ∈ rest, (lookupA (setA inDeg d (v - 1)) e).isSome := by
      intro e he
      by_cases hed : d = e
      · subst hed
        simp [lookupA_setA_self]
      · rw [lookupA_setA_ne _ _ _ _ hed]
        exact hsome e (by simp [he])
    have hle1 : ∀ e ∈ rest,
        ((rest.count e : Int)) ≤
          (lookupA (setA inDeg d (v - 1)) e).getD 0 := by
      intro e he
      by_cases hed : d = e
      · subst hed
        rw [lookupA_setA_self]
        have := hle d (by simp)
        simp only [hv] at this ⊢
        simp [List.count_cons] at this ⊢
        omega
      · rw [lookupA_setA_ne _ _ _ _ hed]
        have := hle e (by simp [he])
        have hcnt : (d :: rest).count e = rest.count e := by
          simp [List.count_cons, hed]
        rw [hcnt] at this
        exact this
    simp only [List.foldl_cons, hstep]
    rw [ih (setA inDeg d (v - 1)) _ hsome1 hle1 m]
    by_cases hmd : m = d
    · subst hmd
      rw [lookupA_setA_self]
      have hvm : (lookupA inDeg m).getD 0 = v := by simp [hv]
      have hcnt : ((m :: rest).count m : Int) = (rest.count m : Int) + 1 := by
        simp [List.count_cons]
      have hlem := hle m (by simp)
      rw [hcnt] at hlem
      by_cases hv1 : v - 1 = 0
      · have hrc : rest.count m = 0 := by
          rw [hvm] at hlem
          omega
        simp only [if_pos hv1]
        constructor
        · intro _
          right
          refine ⟨by simp, ?_⟩
          rw [hvm, hcnt, hrc]
          omega
        · intro _
          left
          simp
      · simp only [if_neg hv1]
        constructor
        · rintro (hma | ⟨hmr, hcv⟩)
          · exact Or.inl hma
          · right
            refine ⟨by simp, ?_⟩
            rw [hvm, hcnt]
            simp at hcv
            omega
        · rintro (hma | ⟨_, hcv⟩)
          · exact Or.inl hma
          · right
            rw [hvm, hcnt] at hcv
            have hrpos : 0 < rest.count m := by omega
            refine ⟨List.count_pos_iff.mp hrpos, ?_⟩
            simp
            omega
    · have hne : d ≠ m := fun h => hmd h.symm
      rw [lookupA_setA_ne _ _ _ _ hne]
      have hadds1 : m ∈ (if v - 1 = 0 then adds ++ [d] else adds) ↔
          m ∈ adds := by
        split
        · simp [hmd]
        · exact Iff.rfl
      rw [hadds1]
      have hcnt : (d :: rest).count m = rest.count m := by
        simp [List.count_cons, hne]
      rw [hcnt]
      constructor
      · rintro (h | ⟨h1, h2⟩)
        · exact Or.inl h
        · exact Or.inr ⟨by simp [h1], h2⟩
      · rintro (h | ⟨h1, h2⟩)
        · exact Or.inl h
        · right
          rcases List.mem_cons.mp h1 with h | h
          · exact absurd h hmd
          · exact ⟨h, h2⟩

theorem decBatch_adds_nodup (ds : List String)
    (inDeg : List (String × Int)) (adds : List String)
    (hnd : adds.Nodup)
    (hdisj : ∀ m ∈ adds, (lookupA inDeg m).getD 0 ≤ 0) :
    (ds.foldl decQueueStep (inDeg, adds)).2.Nodup := by
  induction ds generalizing inDeg adds with
  | nil => simpa using hnd
  | cons d rest ih =>
    simp only [List.foldl_cons]
    rcases hv : lookupA inDeg d with _ | v
    · have hstep : decQueueStep (inDeg, adds) d =
          (setA inDeg d (-1), adds) := by
        simp [decQueueStep, hv]
      rw [hstep]
      refine ih (setA inDeg d (-1)) adds hnd ?_
      intro m hm
      by_cases hmd2 : d = m
      · subst hmd2
        rw [lookupA_setA_self]
        simp
      · rw [lookupA_setA_ne _ _ _ _ hmd2]
        exact hdisj m hm
    · have hstep : decQueueStep (inDeg, adds) d =
          (setA inDeg d (v - 1),
           if v - 1 = 0 then adds ++ [d] else adds) := by
        simp [decQueueStep, hv]
      rw [hstep]
      by_cases hv1 : v - 1 = 0
      · simp only [if_pos hv1]
        have hdadds : d ∉ adds := by
          intro hda
          have hle0 := hdisj d hda
          rw [hv] at hle0
          simp at hle0
          omega
        refine ih (setA inDeg d (v - 1)) (adds ++ [d]) ?_ ?_
        · simp [List.nodup_append, hnd, hdadds]
        · intro m hm
          rcases List.mem_append.mp hm with hma | hmd
          · by_cases hmd2 : d = m
            · subst hmd2
              exact absurd hma hdadds
            · rw [lookupA_setA_ne _ _ _ _ hmd2]
              exact hdisj m hma
          · simp at hmd
            subst hmd
            rw [lookupA_setA_self]
            simp
            omega
      · simp only [if_neg hv1]
        refine ih (setA inDeg d (v - 1)) adds hnd ?_
        intro m hm
        by_cases hmd2 : d = m
        · subst hmd2
          rw [lookupA_setA_self]
          have hle0 := hdisj d hm
          rw [hv] at hle0
          simp at hle0 ⊢
          omega
        · rw [lookupA_setA_ne _ _ _ _ hmd2]
          exact hdisj m hm

theorem count_eq_filter_length (l : List String) (m : String) :
    l.count m = (l.filter (fun d => d = m)).length := by
  rw [List.count_eq_countP, List.countP_eq_length_filter]
  congr 1

theorem count_map_const (l : List String) (k m : String) :
    (l.map (fun _ => k)).count m = if k = m then l.length else 0 := by
  induction l with
  | nil => simp
  | cons a t ih =>
    simp only [List.map_cons, List.count_cons, ih]
    by_cases h : k = m
    · subst h
      simp
    · have hne : ¬ (m = k) := fun hh => h hh.symm
      simp [h, hne]

theorem dependentsOf_subset (g : List (String × List String))
    (node m : String) (hm : m ∈ dependentsOf g node) : m ∈ keysA g := by
  unfold dependentsOf at hm
  obtain ⟨p, hp, hin⟩ := List.mem_flatMap.mp hm
  obtain ⟨d, _, hd⟩ := List.mem_map.mp hin
  subst hd
  exact List.mem_map_of_mem Prod.fst hp

theorem count_dependentsOf_zero (g : List (String × List String))
    (node m : String) (hm : m ∉ keysA g) :
    (dependentsOf g node).count m = 0 :=
  List.count_eq_zero.mpr (fun hc => hm (dependentsOf_subset g node m hc))

theorem count_dependentsOf (g : List (String × List String))
    (hnd : (keysA g).Nodup) (node m : String) (hm : m ∈ keysA g) :
    (dependentsOf g node).count m =
      ((depsOf g m).filter (fun d => d = node)).length := by
  induction g with
  | nil => cases hm
  | cons p t ih =>
    obtain ⟨k, ds⟩ := p
    simp only [keysA, List.map, List.nodup_cons] at hnd
    have hdep : dependentsOf ((k, ds) :: t) node =
        ((ds.filter (fun d => d = node)).map (fun _ => k)) ++
          dependentsOf t node := by
      simp [dependentsOf]
    rw [hdep, List.count_append, count_map_const]
    by_cases hkm : k = m
    · subst hkm
      have hmt : k ∉ keysA t := by simpa [keysA] using hnd.1
      rw [count_dependentsOf_zero t node k hmt]
      simp [depsOf, lookupA]
    · simp only [if_neg hkm, Nat.zero_add]
      have hmt : m ∈ keysA t := by
        rcases List.mem_cons.mp hm with h | h
        · exact absurd h.symm hkm
        · exact h
      rw [ih (by simpa [keysA] using hnd.2) hmt]
      have : depsOf ((k, ds) :: t) m = depsOf t m := by
        simp [depsOf, lookupA, hkm]
      rw [this]

theorem remaining_filter_snoc (deps : List String) (e : List String)
    (node : String) :
    deps.filter (fun d => !((e ++ [node]).contains d)) =
      (deps.filter (fun d => !(e.contains d))).filter
        (fun d => !(d = node)) := by
  rw [List.filter_filter]
  congr 1
  funext d
  by_cases h1 : d = node
  · subst h1
    simp
  · by_cases h2 : d ∈ e <;> simp [h1, h2]

theorem filter_eq_node_of_not_mem (deps : List String) (e : List String)
    (node : String) (hn : node ∉ e) :
    (deps.filter (fun d => !(e.contains d))).filter (fun d => d = node) =
      deps.filter (fun d => d = node) := by
  rw [List.filter_filter]
  congr 1
  funext d
  by_cases h1 : d = node
  · subst h1
    simp [hn]
  · simp [h1]

theorem remaining_snoc (deps : List String) (e : List String)
    (node : String) (hn : node ∉ e) :
    (deps.filter (fun d => !(e.contains d))).length =
      (deps.filter (fun d => !((e ++ [node]).contains d))).length +
        (deps.filter (fun d => d = node)).length := by
  rw [remaining_filter_snoc deps e node,
    ← filter_eq_node_of_not_mem deps e node hn]
  have hsplit := @List.length_eq_length_filter_add String
    (deps.filter (fun d => !(e.contains d))) (fun d => decide (d = node))
  have hcomm :
      (List.filter (fun d => !(decide (d = node)))
        (deps.filter (fun d => !(e.contains d)))) =
      (List.filter (fun d => !(d = node))
        (deps.filter (fun d => !(e.contains d)))) := rfl
  omega

/-- Invariant of the Go `topoSortByPopularity` loop state: `emitted` is a
sound nodup emission, `inDeg` holds exactly the remaining-dependency counts
of the graph nodes, and `queue` is the sorted zero-in-degree frontier. -/
structure KInv (g : List (String × List String)) (pop : List (String × Nat))
    (inDeg : List (String × Int)) (queue emitted : List String) : Prop where
  em_nodup : emitted.Nodup
  em_sub : ∀ n ∈ emitted, n ∈ keysA g
  em_sound : SoundEmit g emitted
  deg_key : ∀ n ∈ keysA g,
    lookupA inDeg n = some ((remainingDeps g emitted n).length : Int)
  deg_non : ∀ k, k ∉ keysA g → lookupA inDeg k = none
  q_perm : queue.Perm (frontierL g emitted)
  q_sorted : queue.Sorted (popBefore pop)

theorem soundEmit_remaining_nil (g : List (String × List String))
    (e : List String) (hs : SoundEmit g e) (m : String) (hm : m ∈ e) :
    remainingDeps g e m = [] := by
  obtain ⟨i, hgi⟩ := List.mem_iff_get.mp hm
  subst hgi
  rw [remainingDeps, List.filter_eq_nil_iff]
  intro d hd
  have hds := hs i.1 i.2 d (by simpa using hd)
  have hde : d ∈ e := List.mem_of_mem_take hds
  simpa using hde

theorem soundEmit_snoc (g : List (String × List String))
    (e : List String) (node : String) (hs : SoundEmit g e)
    (hdeps : ∀ d ∈ depsOf g node, d ∈ e) :
    SoundEmit g (e ++ [node]) := by
  intro i hi d hd
  by_cases hlt : i < e.length
  · have hget : (e ++ [node]).get ⟨i, hi⟩ = e.get ⟨i, hlt⟩ := by
      rw [List.get_append_left]
    rw [hget] at hd
    have := hs i hlt d hd
    rw [List.take_append_of_le_length (le_of_lt hlt)]
    exact this
  · have hlen : i = e.length := by
      simp only [List.length_append, List.length_singleton] at hi
      omega
    have hget : (e ++ [node]).get ⟨i, hi⟩ = node := by
      subst hlen
      simp
    rw [hget] at hd
    subst hlen
    rw [List.take_append_of_le_length (le_refl _)]
    simpa using hdeps d hd

theorem remaining_nil_iff (g : List (String × List String))
    (e : List String) (m : String) :
    remainingDeps g e m = [] ↔ ∀ d ∈ depsOf g m, d ∈ e := by
  rw [remainingDeps, List.filter_eq_nil_iff]
  constructor
  · intro h d hd
    have := h d hd
    simpa using this
  · intro h d hd
    simpa using h d hd

theorem kahn_step (g : List (String × List String))
    (pop : List (String × Nat)) (hnd : (keysA g).Nodup)
    (inDeg : List (String × Int)) (node : String)
    (rest emitted : List String)
    (hinv : KInv g pop inDeg (node :: rest) emitted) :
    KInv g pop ((dependentsOf g node).foldl decQueueStep (inDeg, [])).1
      (sortByPopularity pop
        (rest ++ ((dependentsOf g node).foldl decQueueStep (inDeg, [])).2))
      (emitted ++ [node]) := by
  have hnodef : node ∈ frontierL g emitted :=
    hinv.q_perm.mem_iff.mp (by simp)
  obtain ⟨hnodek, hnodee, hnodedeps⟩ :=
    (mem_frontierL g emitted node hnd).mp hnodef
  have hqnd : (node :: rest).Nodup :=
    hinv.q_perm.nodup_iff.mpr (frontierL_nodup g emitted hnd)
  have hnoderest : node ∉ rest := (List.nodup_cons.mp hqnd).1
  have hrestnd : rest.Nodup := (List.nodup_cons.mp hqnd).2
  have hds_sub : ∀ d ∈ dependentsOf g node, d ∈ keysA g :=
    fun d hd => dependentsOf_subset g node d hd
  have hsome : ∀ d ∈ dependentsOf g node, (lookupA inDeg d).isSome := by
    intro d hd
    rw [hinv.deg_key d (hds_sub d hd)]
    simp
  have hremnode : remainingDeps g emitted node = [] :=
    (remaining_nil_iff g emitted node).mpr hnodedeps
  have hle : ∀ d ∈ dependentsOf g node,
      ((dependentsOf g node).count d : Int) ≤ (lookupA inDeg d).getD 0 := by
    intro d hd
    have hdk : d ∈ keysA g := hds_sub d hd
    rw [hinv.deg_key d hdk]
    rw [count_dependentsOf g hnd node d hdk]
    have hsnoc := remaining_snoc (depsOf g d) emitted node hnodee
    unfold remainingDeps
    simp only [Option.getD_some]
    unfold remainingDeps at hsnoc
    omega
  have hmem_adds : ∀ m,
      m ∈ ((dependentsOf g node).foldl decQueueStep (inDeg, [])).2 ↔
        (m ∈ dependentsOf g node ∧
          (lookupA inDeg m).getD 0 =
            ((dependentsOf g node).count m : Int)) := by
    intro m
    have := decBatch_adds_mem (dependentsOf g node) inDeg [] hsome hle m
    simpa using this
  have hadds_nodup :
      ((dependentsOf g node).foldl decQueueStep (inDeg, [])).2.Nodup :=
    decBatch_adds_nodup (dependentsOf g node) inDeg [] (by simp) (by simp)
  -- a member of adds has positive remaining count before the step
  have hadds_old : ∀ m ∈ ((dependentsOf g node).foldl decQueueStep
      (inDeg, [])).2,
      m ∈ keysA g ∧ 0 < (remainingDeps g emitted m).length ∧
        (remainingDeps g emitted m).length =
          ((depsOf g m).filter (fun d => d = node)).length := by
    intro m hm
    obtain ⟨hmds, hold⟩ := (hmem_adds m).mp hm
    have hmk : m ∈ keysA g := hds_sub m hmds
    have hcpos : 0 < (dependentsOf g node).count m :=
      List.count_pos_iff.mpr hmds
    rw [hinv.deg_key m hmk] at hold
    rw [count_dependentsOf g hnd node m hmk] at hold hcpos
    simp only [Option.getD_some] at hold
    refine ⟨hmk, ?_, ?_⟩ <;> [skip; skip] <;> unfold remainingDeps at hold ⊢
    · omega
    · omega
  refine ⟨?_, ?_, ?_, ?_, ?_, ?_, ?_⟩
  · exact List.Nodup.append hinv.em_nodup (by simp)
      (by simp [List.disjoint_singleton, hnodee])
  · intro n hn
    rcases List.mem_append.mp hn with h | h
    · exact hinv.em_sub n h
    · simp at h
      subst h
      exact hnodek
  · exact soundEmit_snoc g emitted node hinv.em_sound hnodedeps
  · intro n hn
    have hsome_n : (lookupA inDeg n).isSome := by
      rw [hinv.deg_key n hn]
      simp
    rw [decBatch_lookup_some _ _ _ _ hsome_n]
    rw [hinv.deg_key n hn]
    rw [count_dependentsOf g hnd node n hn]
    have hsnoc := remaining_snoc (depsOf g n) emitted node hnodee
    unfold remainingDeps at hsnoc ⊢
    simp only [Option.getD_some]
    congr 1
    omega
  · intro k hk
    have hkds : k ∉ dependentsOf g node := fun hc => hk (hds_sub k hc)
    exact decBatch_lookup_none _ _ _ _ (hinv.deg_non k hk) hkds
  · -- queue permutation
    refine (List.perm_insertionSort _ _).trans ?_
    have hfnd : (frontierL g (emitted ++ [node])).Nodup :=
      frontierL_nodup g _ hnd
    have hnodup : (rest ++ ((dependentsOf g node).foldl decQueueStep
        (inDeg, [])).2).Nodup := by
      refine List.Nodup.append hrestnd hadds_nodup ?_
      intro m hmr hma
      obtain ⟨_, hpos, _⟩ := hadds_old m hma
      have hmf : m ∈ frontierL g emitted :=
        hinv.q_perm.mem_iff.mp (by simp [hmr])
      obtain ⟨_, _, hdeps⟩ := (mem_frontierL g emitted m hnd).mp hmf
      have : remainingDeps g emitted m = [] :=
        (remaining_nil_iff g emitted m).mpr hdeps
      rw [this] at hpos
      simp at hpos
    refine (List.perm_ext_iff_of_nodup hnodup hfnd).mpr ?_
    intro m
    rw [mem_frontierL g _ m hnd]
    constructor
    · intro hm
      rcases List.mem_append.mp hm with hmr | hma
      · have hmf : m ∈ frontierL g emitted :=
          hinv.q_perm.mem_iff.mp (by simp [hmr])
        obtain ⟨hmk, hme, hdeps⟩ := (mem_frontierL g emitted m hnd).mp hmf
        have hmnode : m ≠ node := by
          intro h
          subst h
          exact hnoderest hmr
        refine ⟨hmk, ?_, ?_⟩
        · simp [hme, hmnode]
        · intro d hd
          simp [hdeps d hd]
      · obtain ⟨hmk, hpos, heqc⟩ := hadds_old m hma
        have hme : m ∉ emitted := by
          intro hin
          rw [soundEmit_remaining_nil g emitted hinv.em_sound m hin] at hpos
          simp at hpos
        have hmnode : m ≠ node := by
          intro h
          subst h
          rw [hremnode] at hpos
          simp at hpos
        refine ⟨hmk, by simp [hme, hmnode], ?_⟩
        have hsnoc := remaining_snoc (depsOf g m) emitted node hnodee
        have hzero : (remainingDeps g (emitted ++ [node]) m).length = 0 := by
          unfold remainingDeps at heqc hsnoc ⊢
          omega
        have hnil : remainingDeps g (emitted ++ [node]) m = [] :=
          List.length_eq_zero.mp hzero
        exact (remaining_nil_iff g _ m).mp hnil
    · rintro ⟨hmk, hme2, hdeps2⟩
      have hme : m ∉ emitted := fun h => hme2 (by simp [h])
      have hmnode : m ≠ node := fun h => hme2 (by simp [h])
      by_cases hnodedep : node ∈ depsOf g m
      · refine List.mem_append.mpr (Or.inr ?_)
        rw [hmem_adds m]
        have hnil : remainingDeps g (emitted ++ [node]) m = [] := by
          rw [remaining_nil_iff]
          exact hdeps2
        have hsnoc := remaining_snoc (depsOf g m) emitted node hnodee
        have hfilpos : 0 <
            ((depsOf g m).filter (fun d => d = node)).length := by
          have : node ∈ (depsOf g m).filter (fun d => d = node) :=
            List.mem_filter.mpr ⟨hnodedep, by simp⟩
          exact List.length_pos.mpr (List.ne_nil_of_mem this)
        constructor
        · have : 0 < (dependentsOf g node).count m := by
            rw [count_dependentsOf g hnd node m hmk]
            exact hfilpos
          exact List.count_pos_iff.mp this
        · rw [hinv.deg_key m hmk, count_dependentsOf g hnd node m hmk]
          have hlen0 : (remainingDeps g (emitted ++ [node]) m).length = 0 :=
            by rw [hnil]; rfl
          unfold remainingDeps at hsnoc hlen0 ⊢
          simp only [Option.getD_some]
          omega
      · have hdeps : ∀ d ∈ depsOf g m, d ∈ emitted := by
          intro d hd
          have := hdeps2 d hd
          rcases List.mem_append.mp this with h | h
          · exact h
          · simp at h
            subst h
            exact absurd hd hnodedep
        have hmf : m ∈ frontierL g emitted :=
          (mem_frontierL g emitted m hnd).mpr ⟨hmk, hme, hdeps⟩
        have hmq : m ∈ node :: rest := hinv.q_perm.mem_iff.mpr hmf
        rcases List.mem_cons.mp hmq with h | h
        · exact absurd h hmnode
        · exact List.mem_append.mpr (Or.inl h)
  · exact List.sorted_insertionSort _ _

theorem strLe_refl (a : String) : strLe a a = true := by
  unfold strLe
  induction a.data with
  | nil => rfl
  | cons c t ih => simp [charListLe, ih]

theorem popBefore_refl (pop : List (String × Nat)) (a : String) :
    popBefore pop a a :=
  Or.inr ⟨rfl, strLe_refl a⟩

theorem nodup_subset_length_le (l k : List String) (h1 : l.Nodup)
    (h2 : ∀ n ∈ l, n ∈ k) : l.length ≤ k.length :=
  (List.Nodup.subperm h1 h2).length_le

theorem get_of_snoc_prefix (l : List String) (x : String) (L : List String)
    (h : (l ++ [x]) <+: L) (hi : l.length < L.length) :
    L.get ⟨l.length, hi⟩ = x := by
  obtain ⟨t, ht⟩ := h
  subst ht
  simp [List.getElem_append, List.get_eq_getElem]

theorem take_of_snoc_prefix (l : List String) (x : String) (L : List String)
    (h : (l ++ [x]) <+: L) : L.take l.length = l := by
  obtain ⟨t, ht⟩ := h
  subst ht
  rw [List.append_assoc]
  rw [List.take_append_of_le_length (le_refl _)]
  simp

theorem kahnLoop_master (g : List (String × List String))
    (pop : List (String × Nat)) (hnd : (keysA g).Nodup) :
    ∀ (fuel : Nat) (inDeg : List (String × Int)) (queue emitted : List String),
      KInv g pop inDeg queue emitted →
      (keysA g).length < fuel + emitted.length →
      emitted <+: kahnLoop g pop fuel inDeg queue emitted ∧
      (kahnLoop g pop fuel inDeg queue emitted).Nodup ∧
      (∀ n ∈ kahnLoop g pop fuel inDeg queue emitted, n ∈ keysA g) ∧
      SoundEmit g (kahnLoop g pop fuel inDeg queue emitted) ∧
      (∀ n ∈ keysA g, n ∉ kahnLoop g pop fuel inDeg queue emitted →
        ∃ d ∈ depsOf g n, d ∉ kahnLoop g pop fuel inDeg queue emitted) ∧
      (∀ i (hi : i < (kahnLoop g pop fuel inDeg queue emitted).length),
        emitted.length ≤ i →
        isCandidate g ((kahnLoop g pop fuel inDeg queue emitted).take i)
          ((kahnLoop g pop fuel inDeg queue emitted).get ⟨i, hi⟩) ∧
        ∀ c, isCandidate g ((kahnLoop g pop fuel inDeg queue emitted).take i)
            c →
          popBefore pop ((kahnLoop g pop fuel inDeg queue emitted).get
            ⟨i, hi⟩) c) := by
  intro fuel
  induction fuel with
  | zero =>
    intro inDeg queue emitted hinv harith
    exfalso
    have hle := nodup_subset_length_le emitted (keysA g) hinv.em_nodup
      hinv.em_sub
    omega
  | succ f ih =>
    intro inDeg queue emitted hinv harith
    match queue with
    | [] =>
      have hfr : frontierL g emitted = [] := by
        have hp := hinv.q_perm
        exact hp.nil_eq.symm
      simp only [kahnLoop]
      refine ⟨List.prefix_refl _, hinv.em_nodup, hinv.em_sub,
        hinv.em_sound, ?_, ?_⟩
      · intro n hn hne
        by_contra hcon
        push_neg at hcon
        have hcand : isCandidate g emitted n :=
          ⟨hn, hne, fun d hd => hcon d hd⟩
        have : n ∈ frontierL g emitted :=
          (mem_frontierL g emitted n hnd).mpr hcand
        rw [hfr] at this
        cases this
      · intro i hi hle2
        exfalso
        have : i < emitted.length := hi
        omega
    | node :: rest =>
      have hstep := kahn_step g pop hnd inDeg node rest emitted
        hinv
      have harith2 : (keysA g).length <
          f + (emitted ++ [node]).length := by
        simp only [List.length_append, List.length_singleton]
        omega
      have hrec := ih
        ((dependentsOf g node).foldl decQueueStep (inDeg, [])).1
        (sortByPopularity pop
          (rest ++ ((dependentsOf g node).foldl decQueueStep
            (inDeg, [])).2))
        (emitted ++ [node]) hstep harith2
      obtain ⟨hpre, hnodup2, hsub2, hsound2, hstuck2, hposn2⟩ := hrec
      have hunfold : kahnLoop g pop (f + 1) inDeg (node :: rest) emitted =
          kahnLoop g pop f
            ((dependentsOf g node).foldl decQueueStep (inDeg, [])).1
            (sortByPopularity pop
              (rest ++ ((dependentsOf g node).foldl decQueueStep
                (inDeg, [])).2))
            (emitted ++ [node]) := rfl
      simp only [hunfold]
      have hpre0 : emitted <+: (emitted ++ [node]) := by
        exact ⟨[node], rfl⟩
      refine ⟨hpre0.trans hpre, hnodup2, hsub2, hsound2, hstuck2, ?_⟩
      intro i hi hle2
      by_cases hgt : emitted.length + 1 ≤ i
      · exact hposn2 i hi (by simpa using hgt)
      · have hieq : i = emitted.length := by omega
        subst hieq
        have htake : (kahnLoop g pop f
            ((dependentsOf g node).foldl decQueueStep (inDeg, [])).1
            (sortByPopularity pop
              (rest ++ ((dependentsOf g node).foldl decQueueStep
                (inDeg, [])).2))
            (emitted ++ [node])).take emitted.length = emitted :=
          take_of_snoc_prefix emitted node _ hpre
        have hget : (kahnLoop g pop f
            ((dependentsOf g node).foldl decQueueStep (inDeg, [])).1
            (sortByPopularity pop
              (rest ++ ((dependentsOf g node).foldl decQueueStep
                (inDeg, [])).2))
            (emitted ++ [node])).get ⟨emitted.length, hi⟩ = node :=
          get_of_snoc_prefix emitted node _ hpre hi
        have hfin : isCandidate g
            ((kahnLoop g pop f
              ((dependentsOf g node).foldl decQueueStep (inDeg, [])).1
              (sortByPopularity pop
                (rest ++ ((dependentsOf g node).foldl decQueueStep
                  (inDeg, [])).2))
              (emitted ++ [node])).take emitted.length)
            ((kahnLoop g pop f
              ((dependentsOf g node).foldl decQueueStep (inDeg, [])).1
              (sortByPopularity pop
                (rest ++ ((dependentsOf g node).foldl decQueueStep
                  (inDeg, [])).2))
              (emitted ++ [node])).get ⟨emitted.length, hi⟩) ∧
            ∀ c, isCandidate g
              ((kahnLoop g pop f
                ((dependentsOf g node).foldl decQueueStep (inDeg, [])).1
                (sortByPopularity pop
                  (rest ++ ((dependentsOf g node).foldl decQueueStep
                    (inDeg, [])).2))
                (emitted ++ [node])).take emitted.length) c →
              popBefore pop ((kahnLoop g pop f
                ((dependentsOf g node).foldl decQueueStep (inDeg, [])).1
                (sortByPopularity pop
                  (rest ++ ((dependentsOf g node).foldl decQueueStep
                    (inDeg, [])).2))
                (emitted ++ [node])).get ⟨emitted.length, hi⟩) c := by
          rw [htake, hget]
          have hnodef : node ∈ frontierL g emitted :=
            hinv.q_perm.mem_iff.mp (by simp)
          have hcand : isCandidate g emitted node :=
            (mem_frontierL g emitted node hnd).mp hnodef
          refine ⟨hcand, ?_⟩
          intro c hc
          have hcf : c ∈ frontierL g emitted :=
            (mem_frontierL g emitted c hnd).mpr hc
          have hcq : c ∈ node :: rest := hinv.q_perm.mem_iff.mpr hcf
          rcases List.mem_cons.mp hcq with h | h
          · subst h
            exact popBefore_refl pop c
          · have hsorted : (node :: rest).Sorted (popBefore pop) :=
              hinv.q_sorted
            exact List.rel_of_sorted_cons hsorted c h
        exact hfin

theorem lookupA_map_snd {α β : Type} (g : List (String × α)) (f : α → β)
    (k : String) :
    lookupA (g.map (fun p => (p.1, f p.2))) k = (lookupA g k).map f := by
  induction g with
  | nil => simp [lookupA]
  | cons p t ih =>
    obtain ⟨k1, v1⟩ := p
    by_cases h : k1 = k <;> simp [lookupA, h, ih]

theorem kahnEmitted_initial_inv (g : List (String × List String))
    (pop : List (String × Nat)) (hnd : (keysA g).Nodup) :
    KInv g pop (g.map (fun p => (p.1, (p.2.length : Int))))
      (sortByPopularity pop
        ((g.filter (fun p => p.2.length = 0)).map (·.1))) [] := by
  refine ⟨by simp, by simp, ?_, ?_, ?_, ?_, ?_⟩
  · intro i hi
    simp at hi
  · intro n hn
    rw [lookupA_map_snd g (fun deps => (deps.length : Int)) n]
    obtain ⟨v, hv⟩ := Option.isSome_iff_exists.mp
      ((lookupA_isSome_iff_mem_keys g n).mpr hn)
    rw [hv]
    have hrem : remainingDeps g [] n = depsOf g n := by
      unfold remainingDeps
      simp
    rw [hrem]
    simp [depsOf, hv]
  · intro k hk
    rw [lookupA_map_snd g (fun deps => (deps.length : Int)) k]
    rw [(lookupA_eq_none_iff_not_mem_keys g k).mpr hk]
    rfl
  · refine (List.perm_insertionSort _ _).trans ?_
    have heq : (g.filter (fun p => p.2.length = 0)).map (fun p => p.1) =
        frontierL g [] := by
      unfold frontierL
      congr 1
      apply List.filter_congr
      intro p _
      cases hud : p.2 with
      | nil => simp [hud]
      | cons a t => simp [hud]
    rw [heq]
  · exact List.sorted_insertionSort _ _

theorem kahnEmitted_props (g : List (String × List String))
    (pop : List (String × Nat)) (hnd : (keysA g).Nodup) :
    (kahnEmitted g pop).Nodup ∧
    (∀ n ∈ kahnEmitted g pop, n ∈ keysA g) ∧
    SoundEmit g (kahnEmitted g pop) ∧
    (∀ n ∈ keysA g, n ∉ kahnEmitted g pop →
      ∃ d ∈ depsOf g n, d ∉ kahnEmitted g pop) ∧
    (∀ i (hi : i < (kahnEmitted g pop).length),
      isCandidate g ((kahnEmitted g pop).take i)
        ((kahnEmitted g pop).get ⟨i, hi⟩) ∧
      ∀ c, isCandidate g ((kahnEmitted g pop).take i) c →
        popBefore pop ((kahnEmitted g pop).get ⟨i, hi⟩) c) := by
  have harith : (keysA g).length < (g.length + 1) + ([] : List String).length
      := by
    simp [keysA]
  have h := kahnLoop_master g pop hnd (g.length + 1)
    (g.map (fun p => (p.1, (p.2.length : Int))))
    (sortByPopularity pop
      ((g.filter (fun p => p.2.length = 0)).map (·.1))) []
    (kahnEmitted_initial_inv g pop hnd) harith
  obtain ⟨_, h2, h3, h4, h5, h6⟩ := h
  exact ⟨h2, h3, h4, h5, fun i hi => h6 i hi (by simp)⟩

/-- C3: at every step of the Kahn loop of `topoSortByPopularity`, the
emitted layer is a zero-in-degree candidate, and among all zero-in-degree
candidates at that step it has maximal popularity, with ties broken in
favour of the lexicographically smaller name. -/
theorem topoSort_emits_max_popularity
    (graph : List (String × List String)) (pop : List (String × Nat))
    (hnd : (keysA graph).Nodup) (i : Nat)
    (hi : i < (kahnEmitted graph pop).length) :
    isCandidate graph ((kahnEmitted graph pop).take i)
      ((kahnEmitted graph pop).get ⟨i, hi⟩) ∧
    ∀ c, isCandidate graph ((kahnEmitted graph pop).take i) c →
      popOf pop c < popOf pop ((kahnEmitted graph pop).get ⟨i, hi⟩) ∨
      (popOf pop ((kahnEmitted graph pop).get ⟨i, hi⟩) = popOf pop c ∧
        strLe ((kahnEmitted graph pop).get ⟨i, hi⟩) c = true) := by
  obtain ⟨-, -, -, -, h6⟩ := kahnEmitted_props graph pop hnd
  obtain ⟨hc, hopt⟩ := h6 i hi
  exact ⟨hc, fun c hcc => hopt c hcc⟩

/-- Two-node graph for the C3 witness: layer b is more popular than a. -/
def c3graph : List (String × List String) := [("a", []), ("b", [])]

/-- Popularity for the C3 witness. -/
def c3pop : List (String × Nat) := [("b", 2)]

/-- Witness for C3 at a concrete two-node graph: at step 0 both a and b are
candidates, and b (popularity 2) is emitted before a (popularity 0). -/
theorem topoSort_emits_max_popularity_witness :
    (keysA c3graph).Nodup ∧
    (isCandidate c3graph ((kahnEmitted c3graph c3pop).take 0)
      ((kahnEmitted c3graph c3pop).get ⟨0, by decide⟩) ∧
    ∀ c, isCandidate c3graph ((kahnEmitted c3graph c3pop).take 0) c →
      popOf c3pop c < popOf c3pop ((kahnEmitted c3graph c3pop).get
        ⟨0, by decide⟩) ∨
      (popOf c3pop ((kahnEmitted c3graph c3pop).get ⟨0, by decide⟩) =
        popOf c3pop c ∧
        strLe ((kahnEmitted c3graph c3pop).get ⟨0, by decide⟩) c = true)) :=
  ⟨by decide, topoSort_emits_max_popularity c3graph c3pop (by decide) 0
    (by decide)⟩

theorem soundEmit_indexOf_lt (g : List (String × List String))
    (e : List String) (hs : SoundEmit g e) (v : String) (hv : v ∈ e)
    (u : String) (hu : u ∈ depsOf g v) : e.indexOf u < e.indexOf v := by
  have hj : e.indexOf v < e.length := List.indexOf_lt_length.mpr hv
  have hget : e.get ⟨e.indexOf v, hj⟩ = v := List.indexOf_get hj
  have htake : u ∈ e.take (e.indexOf v) :=
    hs _ hj u (by rw [hget]; exact hu)
  have hsplit : e = e.take (e.indexOf v) ++ e.drop (e.indexOf v) :=
    (List.take_append_drop _ _).symm
  calc e.indexOf u
      = (e.take (e.indexOf v) ++ e.drop (e.indexOf v)).indexOf u := by
        rw [← hsplit]
    _ = (e.take (e.indexOf v)).indexOf u :=
        List.indexOf_append_of_mem htake
    _ < (e.take (e.indexOf v)).length := List.indexOf_lt_length.mpr htake
    _ ≤ e.indexOf v := by simp [List.length_take]

theorem keysA_nodup_setA {α : Type} (m : List (String × α)) (k : String)
    (v : α) (hnd : (keysA m).Nodup) : (keysA (setA m k v)).Nodup := by
  rw [keysA_setA]
  by_cases h : k ∈ keysA m
  · simpa [h] using hnd
  · simp [h, List.nodup_append, hnd]

theorem foldl_bumpA_keys_nodup (ls : List String)
    (pop0 : List (String × Nat)) (hnd : (keysA pop0).Nodup) :
    (keysA (ls.foldl bumpA pop0)).Nodup := by
  induction ls generalizing pop0 with
  | nil => exact hnd
  | cons l t ih =>
    exact ih (bumpA pop0 l) (keysA_nodup_setA pop0 l _ hnd)

theorem popLoop_keys_nodup (images : List (String × ResolvedImage))
    (layers : List (String × Layer))
    (iter : List (String × ResolvedImage)) (pop0 pop : List (String × Nat))
    (h : popLoop images layers iter pop0 = Except.ok pop)
    (hnd : (keysA pop0).Nodup) : (keysA pop).Nodup := by
  induction iter generalizing pop0 with
  | nil =>
    simp only [popLoop] at h
    cases h
    exact hnd
  | cons p t ih =>
    obtain ⟨k, img⟩ := p
    simp only [popLoop] at h
    cases hres : ResolveLayerOrder img.Layers layers [] with
    | error e =>
      rw [hres] at h
      cases h
    | ok resolved =>
      rw [hres] at h
      exact ih _ h (foldl_bumpA_keys_nodup _ pop0 hnd)

theorem keysA_filterMap_sublist {β : Type} (pop : List (String × Nat))
    (layers : List (String × Layer)) (f : String × Nat → Layer → β) :
    (keysA (pop.filterMap (fun p =>
      match lookupA layers p.1 with
      | none => none
      | some ly => some (p.1, f p ly)))).Sublist (keysA pop) := by
  induction pop with
  | nil => simp [keysA]
  | cons p t ih =>
    cases hl : lookupA layers p.1 with
    | none =>
      simp only [List.filterMap_cons, hl]
      exact ih.trans (by simp [keysA])
    | some ly =>
      simp only [List.filterMap_cons, hl]
      simp only [keysA, List.map]
      exact ih.cons₂ p.1

theorem buildGraph_keys_sublist (pop : List (String × Nat))
    (layers : List (String × Layer)) :
    (keysA (buildGraph pop layers)).Sublist (keysA pop) := by
  unfold buildGraph
  exact keysA_filterMap_sublist pop layers
    (fun _ ly => ly.Depends.filter (fun dep => hasKeyA pop dep))

theorem buildGraph_lookup (pop : List (String × Nat))
    (layers : List (String × Layer)) (v : String) (lv : Layer)
    (hnd : (keysA pop).Nodup) (hv : v ∈ keysA pop)
    (hlv : lookupA layers v = some lv) :
    lookupA (buildGraph pop layers) v =
      some (lv.Depends.filter (fun dep => hasKeyA pop dep)) := by
  obtain ⟨n, hn⟩ := Option.isSome_iff_exists.mp
    ((lookupA_isSome_iff_mem_keys pop v).mpr hv)
  have hmem : (v, n) ∈ pop := mem_of_lookupA_eq_some hn
  have hgmem : (v, lv.Depends.filter (fun dep => hasKeyA pop dep)) ∈
      buildGraph pop layers := by
    unfold buildGraph
    refine List.mem_filterMap.mpr ⟨(v, n), hmem, ?_⟩
    simp [hlv]
  have hgnd : (keysA (buildGraph pop layers)).Nodup :=
    hnd.sublist (buildGraph_keys_sublist pop layers)
  exact lookupA_eq_of_mem_nodup hgmem hgnd

theorem buildGraph_key_mem (pop : List (String × Nat))
    (layers : List (String × Layer)) (l : String)
    (hl : l ∈ keysA pop) (hknown : l ∈ keysA layers) :
    l ∈ keysA (buildGraph pop layers) := by
  obtain ⟨n, hn⟩ := Option.isSome_iff_exists.mp
    ((lookupA_isSome_iff_mem_keys pop l).mpr hl)
  obtain ⟨ly, hly⟩ := Option.isSome_iff_exists.mp
    ((lookupA_isSome_iff_mem_keys layers l).mpr hknown)
  have hmem : (l, n) ∈ pop := mem_of_lookupA_eq_some hn
  have : (l, ly.Depends.filter (fun dep => hasKeyA pop dep)) ∈
      buildGraph pop layers := by
    unfold buildGraph
    refine List.mem_filterMap.mpr ⟨(l, n), hmem, ?_⟩
    simp [hly]
  exact List.mem_map_of_mem Prod.fst this

theorem globalLayerOrder_ok_elim (images : List (String × ResolvedImage))
    (layers : List (String × Layer)) (order : List String)
    (h : GlobalLayerOrder images layers = Except.ok order) :
    ∃ pop, popLoop images layers images [] = Except.ok pop ∧
      order = kahnEmitted (buildGraph pop layers) pop ∧
      order.length = (buildGraph pop layers).length := by
  unfold GlobalLayerOrder at h
  cases hp : popLoop images layers images [] with
  | error e =>
    rw [hp] at h
    cases h
  | ok pop =>
    rw [hp] at h
    unfold topoSortByPopularity at h
    dsimp only [] at h
    by_cases hlen : (kahnEmitted (buildGraph pop layers) pop).length ≠
        (buildGraph pop layers).length
    · rw [if_pos hlen] at h
      cases h
    · rw [if_neg hlen] at h
      have h2 : kahnEmitted (buildGraph pop layers) pop = order := by
        injection h
      push_neg at hlen
      exact ⟨pop, rfl, h2.symm, by rw [← h2]; exact hlen⟩

theorem kahnEmitted_complete (g : List (String × List String))
    (pop : List (String × Nat)) (hnd : (keysA g).Nodup)
    (hlen : (kahnEmitted g pop).length = g.length) :
    ∀ n ∈ keysA g, n ∈ kahnEmitted g pop := by
  obtain ⟨hnodup, hsub, -, -, -⟩ := kahnEmitted_props g pop hnd
  have hklen : (keysA g).length = g.length := by simp [keysA]
  have hsubperm : (kahnEmitted g pop).Subperm (keysA g) :=
    List.Nodup.subperm hnodup hsub
  have hperm : (kahnEmitted g pop).Perm (keysA g) :=
    hsubperm.perm_of_length_le (by omega)
  intro n hn
  exact hperm.mem_iff.mpr hn

/-- C4: the order returned by `GlobalLayerOrder` is topologically sound:
for every dependency edge u -> v (layer v lists u in its Depends and both
layers are used by some image, i.e. both have a popularity entry), the
index of u in the returned order is strictly less than the index of v. -/
theorem globalLayerOrder_topological_sound
    (images : List (String × ResolvedImage))
    (layers : List (String × Layer)) (order : List String)
    (pop : List (String × Nat))
    (h : GlobalLayerOrder images layers = Except.ok order)
    (hpop : popLoop images layers images [] = Except.ok pop)
    (v : String) (lv : Layer) (hlv : lookupA layers v = some lv)
    (hvused : v ∈ keysA pop)
    (u : String) (hu : u ∈ lv.Depends) (huused : u ∈ keysA pop) :
    order.indexOf u < order.indexOf v := by
  obtain ⟨pop2, hpop2, horder, hlen⟩ :=
    globalLayerOrder_ok_elim images layers order h
  rw [hpop] at hpop2
  have hpeq : pop2 = pop := by
    injection hpop2 with he
    exact he.symm
  rw [hpeq] at horder hlen
  have hndpop : (keysA pop).Nodup :=
    popLoop_keys_nodup images layers images [] pop hpop (by simp [keysA])
  have hndg : (keysA (buildGraph pop layers)).Nodup :=
    hndpop.sublist (buildGraph_keys_sublist pop layers)
  have hlkg : lookupA (buildGraph pop layers) v =
      some (lv.Depends.filter (fun dep => hasKeyA pop dep)) :=
    buildGraph_lookup pop layers v lv hndpop hvused hlv
  have hvkey : v ∈ keysA (buildGraph pop layers) :=
    (lookupA_isSome_iff_mem_keys _ _).mp (by simp [hlkg])
  have hukey : hasKeyA pop u = true := by
    unfold hasKeyA
    rw [(lookupA_isSome_iff_mem_keys pop u)]
    exact huused
  have hudep : u ∈ depsOf (buildGraph pop layers) v := by
    unfold depsOf
    rw [hlkg]
    simp only [Option.getD_some]
    exact List.mem_filter.mpr ⟨hu, hukey⟩
  obtain ⟨-, -, hsound, -, -⟩ :=
    kahnEmitted_props (buildGraph pop layers) pop hndg
  have hvin : v ∈ order := by
    rw [horder]
    exact kahnEmitted_complete _ pop hndg (horder ▸ hlen) v hvkey
  rw [horder] at hvin ⊢
  exact soundEmit_indexOf_lt (buildGraph pop layers) _ hsound v hvin u hudep

/-- Witness for C4: on the pixi/python fixture the planner returns
["pixi", "python"] and the dependency edge pixi -> python is respected. -/
theorem globalLayerOrder_topological_sound_witness :
    GlobalLayerOrder [("a", mkImage "a" "ext:1" true ["python"])]
      [("pixi", mkLayer "pixi" []), ("python", mkLayer "python" ["pixi"])] =
      Except.ok ["pixi", "python"] ∧
    (["pixi", "python"] : List String).indexOf "pixi" <
      (["pixi", "python"] : List String).indexOf "python" :=
  ⟨rfl, globalLayerOrder_topological_sound
    [("a", mkImage "a" "ext:1" true ["python"])]
    [("pixi", mkLayer "pixi" []), ("python", mkLayer "python" ["pixi"])]
    ["pixi", "python"] [("pixi", 1), ("python", 1)] rfl rfl
    "python" (mkLayer "python" ["pixi"]) rfl (by decide)
    "pixi" (by decide) (by decide)⟩

theorem mem_dedup_foldl_of_mem_acc (extra acc : List String) (l : String)
    (h : l ∈ acc) :
    l ∈ extra.foldl (fun a x => if a.contains x then a else a ++ [x]) acc := by
  induction extra generalizing acc with
  | nil => exact h
  | cons x t ih =>
    simp only [List.foldl_cons]
    by_cases hc : x ∈ acc
    · simpa [hc] using ih acc h
    · simpa [hc] using ih (acc ++ [x]) (List.mem_append_left _ h)

theorem mem_dedup_foldl_elim (extra acc : List String) (l : String)
    (h : l ∈ extra.foldl (fun a x => if a.contains x then a else a ++ [x]) acc) :
    l ∈ acc ∨ l ∈ extra := by
  induction extra generalizing acc with
  | nil => exact Or.inl h
  | cons x t ih =>
    simp only [List.foldl_cons] at h
    by_cases hc : x ∈ acc
    · rcases ih acc (by simpa [hc] using h) with h1 | h1
      · exact Or.inl h1
      · exact Or.inr (List.mem_cons_of_mem _ h1)
    · rcases ih (acc ++ [x]) (by simpa [hc] using h) with h1 | h1
      · rcases List.mem_append.mp h1 with h2 | h2
        · exact Or.inl h2
        · have : l = x := by simpa using h2
          exact Or.inr (this ▸ List.mem_cons_self _ _)
      · exact Or.inr (List.mem_cons_of_mem _ h1)

theorem topoLexAux_mem_known (layers : List (String × Layer)) (f : Nat)
    (remaining acc out : List String)
    (h : topoLexAux layers f remaining acc = Except.ok out) (l : String)
    (hl : l ∈ out) : l ∈ acc ∨ l ∈ keysA layers := by
  induction f generalizing remaining acc with
  | zero =>
    unfold topoLexAux at h
    by_cases hr : remaining = []
    · rw [if_pos hr] at h
      injection h with he
      subst he
      exact Or.inl hl
    · rw [if_neg hr] at h
      cases h
  | succ f ih =>
    unfold topoLexAux at h
    by_cases hr : remaining = []
    · rw [if_pos hr] at h
      injection h with he
      subst he
      exact Or.inl hl
    · rw [if_neg hr] at h
      cases hf : remaining.find? (fun n =>
        match lookupA layers n with
        | none => false
        | some ly => ly.Depends.all (fun d => !(remaining.contains d))) with
      | none =>
        rw [hf] at h
        cases h
      | some n =>
        rw [hf] at h
        rcases ih (remaining.erase n) (acc ++ [n]) h with h1 | h1
        · rcases List.mem_append.mp h1 with h2 | h2
          · exact Or.inl h2
          · have hln : l = n := by simpa using h2
            subst hln
            have hp := List.find?_some hf
            right
            cases hlk : lookupA layers l with
            | none =>
              rw [hlk] at hp
              simp at hp
            | some ly =>
              exact (lookupA_isSome_iff_mem_keys _ _).mp (by simp [hlk])
        · exact Or.inr h1

theorem resolveLayerOrder_mem_known (sel : List String)
    (layers : List (String × Layer)) (excl out : List String)
    (h : ResolveLayerOrder sel layers excl = Except.ok out)
    (l : String) (hl : l ∈ out) : l ∈ keysA layers := by
  unfold ResolveLayerOrder at h
  cases hc : layerClosureAux layers
      (sel.length + (layers.length + 1) * (totalDepsLen layers + 1))
      sel [] with
  | error e =>
    rw [hc] at h
    cases h
  | ok closure =>
    rw [hc] at h
    have h2 : topoLexAux layers
        (sortStrings (closure.filter (fun x => !excl.contains x))).length
        (sortStrings (closure.filter (fun x => !excl.contains x))) [] =
        Except.ok out := h
    rcases topoLexAux_mem_known layers _ _ _ _ h2 l hl with h3 | h3
    · cases h3
    · exact h3

theorem collectWalk_mem_known (images : List (String × ResolvedImage))
    (layers : List (String × Layer)) (f : Nat) (name : String)
    (acc : List String) (l : String)
    (hl : l ∈ collectWalk images layers f name acc) :
    l ∈ acc ∨ l ∈ keysA layers := by
  induction f generalizing name acc with
  | zero => exact Or.inl hl
  | succ f ih =>
    unfold collectWalk at hl
    cases him : lookupA images name with
    | none =>
      rw [him] at hl
      exact Or.inl hl
    | some img =>
      rw [him] at hl
      cases hr : ResolveLayerOrder img.Layers layers [] with
      | error e =>
        simp only [hr] at hl
        by_cases hext : img.IsExternalBase = true
        · simp only [hext, if_true] at hl
          exact Or.inl hl
        · simp only [hext, if_false] at hl
          exact ih img.Base acc hl
      | ok resolved =>
        simp only [hr] at hl
        by_cases hext : img.IsExternalBase = true
        · simp only [hext, if_true] at hl
          rcases mem_dedup_foldl_elim resolved acc l hl with h1 | h1
          · exact Or.inl h1
          · exact Or.inr (resolveLayerOrder_mem_known _ _ _ _ hr l h1)
        · simp only [hext, if_false] at hl
          rcases mem_dedup_foldl_elim resolved _ l hl with h1 | h1
          · exact ih img.Base acc h1
          · exact Or.inr (resolveLayerOrder_mem_known _ _ _ _ hr l h1)

theorem mem_keysA_foldl_bumpA_of_mem (ls : List String)
    (pop : List (String × Nat)) (l : String)
    (h : l ∈ keysA pop ∨ l ∈ ls) : l ∈ keysA (ls.foldl bumpA pop) := by
  induction ls generalizing pop with
  | nil =>
    rcases h with h | h
    · exact h
    · cases h
  | cons x t ih =>
    simp only [List.foldl_cons]
    apply ih
    rcases h with h | h
    · left
      unfold bumpA
      rw [keysA_setA]
      by_cases hx : x ∈ keysA pop
      · simpa [hx] using h
      · rw [if_neg hx]
        exact List.mem_append_left _ h
    · rcases List.mem_cons.mp h with he | ht
      · subst he
        left
        unfold bumpA
        rw [keysA_setA]
        by_cases hx : l ∈ keysA pop
        · simp [hx]
        · rw [if_neg hx]
          simp
      · exact Or.inr ht

theorem popLoop_keys_mono (images : List (String × ResolvedImage))
    (layers : List (String × Layer))
    (iter : List (String × ResolvedImage)) (pop0 pop : List (String × Nat))
    (h : popLoop images layers iter pop0 = Except.ok pop) (l : String)
    (hl : l ∈ keysA pop0) : l ∈ keysA pop := by
  induction iter generalizing pop0 with
  | nil =>
    unfold popLoop at h
    injection h with he
    subst he
    exact hl
  | cons p t ih =>
    obtain ⟨k2, img2⟩ := p
    unfold popLoop at h
    cases hr : ResolveLayerOrder img2.Layers layers [] with
    | error e =>
      rw [hr] at h
      cases h
    | ok resolved =>
      rw [hr] at h
      exact ih _ h (mem_keysA_foldl_bumpA_of_mem _ _ l (Or.inl hl))

theorem popLoop_closure_mem (images : List (String × ResolvedImage))
    (layers : List (String × Layer))
    (iter : List (String × ResolvedImage)) (pop0 pop : List (String × Nat))
    (h : popLoop images layers iter pop0 = Except.ok pop)
    (k : String) (img : ResolvedImage) (hk : (k, img) ∈ iter) (l : String)
    (hl : l ∈ collectAllImageLayers img.Name images layers) :
    l ∈ keysA pop := by
  induction iter generalizing pop0 with
  | nil => cases hk
  | cons p t ih =>
    obtain ⟨k2, img2⟩ := p
    unfold popLoop at h
    cases hr : ResolveLayerOrder img2.Layers layers [] with
    | error e =>
      rw [hr] at h
      cases h
    | ok resolved =>
      rw [hr] at h
      rcases List.mem_cons.mp hk with he | ht
      · have himg : img = img2 := congrArg Prod.snd he
        rw [himg] at hl
        have hmer : l ∈ dedupAppend
            (collectAllImageLayers img2.Name images layers) resolved :=
          mem_dedup_foldl_of_mem_acc resolved _ l hl
        exact popLoop_keys_mono images layers t _ pop h l
          (mem_keysA_foldl_bumpA_of_mem _ _ l (Or.inr hmer))
      · exact ih _ h ht

/-- C5: for every image of the map, on a successful run of
`GlobalLayerOrder`, `AbsoluteLayerSequence` returns a subsequence of the
global order whose members are exactly the layers of the image's transitive
closure (own resolved layers plus everything inherited through the base
chain, as computed by `collectAllImageLayers`). -/
theorem absoluteLayerSequence_spec
    (images : List (String × ResolvedImage)) (layers : List (String × Layer))
    (order : List String)
    (h : GlobalLayerOrder images layers = Except.ok order)
    (k : String) (img : ResolvedImage) (hk : (k, img) ∈ images) :
    (AbsoluteLayerSequence img.Name images layers order).Sublist order ∧
    ∀ l, l ∈ AbsoluteLayerSequence img.Name images layers order ↔
      l ∈ collectAllImageLayers img.Name images layers := by
  constructor
  · exact List.filter_sublist _
  · intro l
    constructor
    · intro hl
      unfold AbsoluteLayerSequence at hl
      have hm := List.mem_filter.mp hl
      simpa using hm.2
    · intro hl
      obtain ⟨pop, hpop, horder, hlen⟩ :=
        globalLayerOrder_ok_elim images layers order h
      have hknown : l ∈ keysA layers := by
        rcases collectWalk_mem_known images layers
            (images.length + 1) img.Name [] l hl with h1 | h1
        · cases h1
        · exact h1
      have hpopmem : l ∈ keysA pop :=
        popLoop_closure_mem images layers images [] pop hpop k img hk l hl
      have hndpop : (keysA pop).Nodup :=
        popLoop_keys_nodup images layers images [] pop hpop (by simp [keysA])
      have hndg : (keysA (buildGraph pop layers)).Nodup :=
        hndpop.sublist (buildGraph_keys_sublist pop layers)
      have hg : l ∈ keysA (buildGraph pop layers) :=
        buildGraph_key_mem pop layers l hpopmem hknown
      have hord : l ∈ order := by
        rw [horder]
        exact kahnEmitted_complete _ pop hndg (horder ▸ hlen) l hg
      unfold AbsoluteLayerSequence
      exact List.mem_filter.mpr ⟨hord, by simpa using hl⟩

/-- Witness for C5: on the shared-prefix fixture, fedora-test's absolute
sequence is a subsequence of the global order and contains the inherited
layer "pixi". -/
theorem absoluteLayerSequence_spec_witness :
    GlobalLayerOrder sharedImages sharedLayers =
      Except.ok ["pixi", "python", "supervisord", "openclaw", "testapi"] ∧
    ("fedora-test", mkImage "fedora-test" "fedora" false ["testapi"]) ∈
      sharedImages ∧
    (AbsoluteLayerSequence "fedora-test" sharedImages sharedLayers
        ["pixi", "python", "supervisord", "openclaw", "testapi"]).Sublist
      ["pixi", "python", "supervisord", "openclaw", "testapi"] ∧
    ("pixi" ∈ AbsoluteLayerSequence "fedora-test" sharedImages sharedLayers
        ["pixi", "python", "supervisord", "openclaw", "testapi"] ↔
      "pixi" ∈ collectAllImageLayers "fedora-test" sharedImages sharedLayers) :=
  ⟨rfl, by decide,
   (absoluteLayerSequence_spec sharedImages sharedLayers
     ["pixi", "python", "supervisord", "openclaw", "testapi"] rfl
     "fedora-test" (mkImage "fedora-test" "fedora" false ["testapi"])
     (by decide)).1,
   (absoluteLayerSequence_spec sharedImages sharedLayers
     ["pixi", "python", "supervisord", "openclaw", "testapi"] rfl
     "fedora-test" (mkImage "fedora-test" "fedora" false ["testapi"])
     (by decide)).2 "pixi"⟩

theorem depPath_trans (g : List (String × List String)) (u v w : String)
    (h1 : DepPath g u v) (h2 : DepPath g v w) : DepPath g u w := by
  induction h2 with
  | edge y hxy => exact DepPath.cons u v y h1 hxy
  | cons y z hpath hyz ih => exact DepPath.cons u y z ih hyz

theorem depPath_target_key (g : List (String × List String)) (u v : String)
    (h : DepPath g u v) : v ∈ keysA g := by
  induction h with
  | edge y hxy =>
    unfold depsOf at hxy
    cases hl : lookupA g y with
    | none =>
      rw [hl] at hxy
      simp at hxy
    | some deps =>
      exact (lookupA_isSome_iff_mem_keys g y).mp (by simp [hl])
  | cons y z hpath hyz ih =>
    unfold depsOf at hyz
    cases hl : lookupA g z with
    | none =>
      rw [hl] at hyz
      simp at hyz
    | some deps =>
      exact (lookupA_isSome_iff_mem_keys g z).mp (by simp [hl])

theorem chain_depPath (g : List (String × List String)) (c : List String)
    (a : String) (hch : (a :: c).Chain' (fun x y => x ∈ depsOf g y)) :
    ∀ b ∈ c, DepPath g a b := by
  induction c generalizing a with
  | nil =>
    intro b hb
    cases hb
  | cons x rest ih =>
    intro b hb
    have hax : a ∈ depsOf g x := (List.chain'_cons.mp hch).1
    rcases List.mem_cons.mp hb with he | ht
    · subst he
      exact DepPath.edge a b hax
    · exact depPath_trans g a x b (DepPath.edge a x hax)
        (ih x (List.chain'_cons.mp hch).2 b ht)

theorem not_nodup_split (c : List String) (h : ¬c.Nodup) :
    ∃ p m q, c = p ++ m :: q ∧ m ∈ q := by
  induction c with
  | nil => exact absurd List.nodup_nil h
  | cons x t ih =>
    by_cases hx : x ∈ t
    · exact ⟨[], x, t, rfl, hx⟩
    · have hnt : ¬t.Nodup := by
        intro hnd
        exact h (List.nodup_cons.mpr ⟨hx, hnd⟩)
      obtain ⟨p, m, q, heq, hm⟩ := ih hnt
      exact ⟨x :: p, m, q, by rw [heq]; rfl, hm⟩

theorem cycle_of_stuck (g : List (String × List String)) (R : List String)
    (hne : R ≠ [])
    (hstep : ∀ n ∈ R, ∃ d, d ∈ depsOf g n ∧ d ∈ R) : HasCycle g := by
  obtain ⟨n0, hn0⟩ : ∃ n0, n0 ∈ R := by
    cases R with
    | nil => exact absurd rfl hne
    | cons x t => exact ⟨x, by simp⟩
  have hchain : ∀ k, ∃ c : List String, c.length = k + 1 ∧
      c.Chain' (fun x y => x ∈ depsOf g y) ∧ ∀ x ∈ c, x ∈ R := by
    intro k
    induction k with
    | zero => exact ⟨[n0], rfl, List.chain'_singleton n0, by simpa using hn0⟩
    | succ k ihk =>
      obtain ⟨c, hlen, hch, hmem⟩ := ihk
      cases c with
      | nil => cases hlen
      | cons h0 t =>
        obtain ⟨d, hd1, hd2⟩ := hstep h0 (hmem h0 (by simp))
        refine ⟨d :: h0 :: t, by simpa using hlen, ?_, ?_⟩
        · exact List.chain'_cons.mpr ⟨hd1, hch⟩
        · intro x hx
          rcases List.mem_cons.mp hx with he | ht
          · exact he ▸ hd2
          · exact hmem x ht
  obtain ⟨c, hlen, hch, hmem⟩ := hchain R.length
  have hnotnd : ¬c.Nodup := by
    intro hnd
    have := nodup_subset_length_le c R hnd hmem
    omega
  obtain ⟨p, m, q, heq, hmq⟩ := not_nodup_split c hnotnd
  have hsuf : (m :: q).Chain' (fun x y => x ∈ depsOf g y) := by
    refine List.Chain'.suffix hch ⟨p, ?_⟩
    rw [heq]
  exact ⟨m, chain_depPath g q m hsuf m hmq⟩

theorem depPath_indexOf_lt (g : List (String × List String))
    (e : List String) (hs : SoundEmit g e)
    (hcomp : ∀ n ∈ keysA g, n ∈ e) (u v : String) (h : DepPath g u v) :
    e.indexOf u < e.indexOf v := by
  induction h with
  | edge y hxy =>
    exact soundEmit_indexOf_lt g e hs y
      (hcomp y (depPath_target_key g u y (DepPath.edge u y hxy))) u hxy
  | cons y z hpath hyz ih =>
    have hzy : e.indexOf y < e.indexOf z :=
      soundEmit_indexOf_lt g e hs z
        (hcomp z (depPath_target_key g u z (DepPath.cons u y z hpath hyz)))
        y hyz
    omega

theorem no_cycle_of_complete (g : List (String × List String))
    (pop : List (String × Nat)) (hnd : (keysA g).Nodup)
    (hlen : (kahnEmitted g pop).length = g.length) : ¬HasCycle g := by
  rintro ⟨n, hpath⟩
  obtain ⟨-, -, hsound, -, -⟩ := kahnEmitted_props g pop hnd
  have hcomp : ∀ m ∈ keysA g, m ∈ kahnEmitted g pop :=
    kahnEmitted_complete g pop hnd hlen
  exact absurd (depPath_indexOf_lt g (kahnEmitted g pop) hsound hcomp n n
    hpath) (by omega)

theorem mem_keysA_foldl_bumpA_elim (ls : List String)
    (pop : List (String × Nat)) (l : String)
    (h : l ∈ keysA (ls.foldl bumpA pop)) : l ∈ keysA pop ∨ l ∈ ls := by
  induction ls generalizing pop with
  | nil => exact Or.inl h
  | cons x t ih =>
    simp only [List.foldl_cons] at h
    rcases ih (bumpA pop x) h with h1 | h1
    · unfold bumpA at h1
      rw [keysA_setA] at h1
      by_cases hx : x ∈ keysA pop
      · rw [if_pos hx] at h1
        exact Or.inl h1
      · rw [if_neg hx] at h1
        rcases List.mem_append.mp h1 with h2 | h2
        · exact Or.inl h2
        · have : l = x := by simpa using h2
          exact Or.inr (this ▸ List.mem_cons_self _ _)
    · exact Or.inr (List.mem_cons_of_mem _ h1)

theorem popLoop_keys_known (images : List (String × ResolvedImage))
    (layers : List (String × Layer))
    (iter : List (String × ResolvedImage)) (pop0 pop : List (String × Nat))
    (h : popLoop images layers iter pop0 = Except.ok pop)
    (h0 : ∀ l ∈ keysA pop0, l ∈ keysA layers) :
    ∀ l ∈ keysA pop, l ∈ keysA layers := by
  induction iter generalizing pop0 with
  | nil =>
    unfold popLoop at h
    injection h with he
    subst he
    exact h0
  | cons p t ih =>
    obtain ⟨k2, img2⟩ := p
    unfold popLoop at h
    cases hr : ResolveLayerOrder img2.Layers layers [] with
    | error e =>
      rw [hr] at h
      cases h
    | ok resolved =>
      rw [hr] at h
      refine ih _ h ?_
      intro l hl
      rcases mem_keysA_foldl_bumpA_elim _ _ l hl with h1 | h1
      · exact h0 l h1
      · rcases mem_dedup_foldl_elim resolved _ l h1 with h2 | h2
        · rcases collectWalk_mem_known images layers
              (images.length + 1) img2.Name [] l h2 with h3 | h3
          · cases h3
          · exact h3
        · exact resolveLayerOrder_mem_known _ _ _ _ hr l h2

theorem mem_buildGraph_elim (pop : List (String × Nat))
    (layers : List (String × Layer)) (n : String) (deps : List String)
    (h : (n, deps) ∈ buildGraph pop layers) :
    ∃ ly, lookupA layers n = some ly ∧
      deps = ly.Depends.filter (fun dep => hasKeyA pop dep) ∧
      n ∈ keysA pop := by
  unfold buildGraph at h
  obtain ⟨p, hp, hpf⟩ := List.mem_filterMap.mp h
  cases hl : lookupA layers p.1 with
  | none =>
    rw [hl] at hpf
    cases hpf
  | some ly =>
    rw [hl] at hpf
    injection hpf with he
    have h1 : p.1 = n := congrArg Prod.fst he
    have h2 : ly.Depends.filter (fun dep => hasKeyA pop dep) = deps :=
      congrArg Prod.snd he
    subst h1
    exact ⟨ly, hl, h2.symm, List.mem_map_of_mem Prod.fst hp⟩

theorem buildGraph_closed (images : List (String × ResolvedImage))
    (layers : List (String × Layer)) (pop : List (String × Nat))
    (hpop : popLoop images layers images [] = Except.ok pop) :
    ∀ n ∈ keysA (buildGraph pop layers),
      ∀ d ∈ depsOf (buildGraph pop layers) n,
        d ∈ keysA (buildGraph pop layers) := by
  intro n hn d hd
  obtain ⟨deps, hdeps⟩ := Option.isSome_iff_exists.mp
    ((lookupA_isSome_iff_mem_keys _ _).mpr hn)
  obtain ⟨ly, -, hfil, -⟩ :=
    mem_buildGraph_elim pop layers n deps (mem_of_lookupA_eq_some hdeps)
  unfold depsOf at hd
  rw [hdeps] at hd
  simp only [Option.getD_some] at hd
  rw [hfil] at hd
  have hdk : hasKeyA pop d = true := (List.mem_filter.mp hd).2
  have hdpop : d ∈ keysA pop := by
    unfold hasKeyA at hdk
    exact (lookupA_isSome_iff_mem_keys pop d).mp (by simpa using hdk)
  have hdknown : d ∈ keysA layers :=
    popLoop_keys_known images layers images [] pop hpop
      (by intro l hl; cases hl) d hdpop
  exact buildGraph_key_mem pop layers d hdpop hdknown

/-- C9: once popularity counting has succeeded, `GlobalLayerOrder` fails
with the cycle error exactly when the dependency graph restricted to
popular layers (`buildGraph`) has a cycle; equivalently exactly when
Kahn's algorithm emits fewer nodes than the restricted graph has; and on
that error no order is returned. -/
theorem globalLayerOrder_cycle_error
    (images : List (String × ResolvedImage))
    (layers : List (String × Layer)) (pop : List (String × Nat))
    (hpop : popLoop images layers images [] = Except.ok pop) :
    (GlobalLayerOrder images layers =
        Except.error "cycle detected in layer dependency graph" ↔
      HasCycle (buildGraph pop layers)) ∧
    (GlobalLayerOrder images layers =
        Except.error "cycle detected in layer dependency graph" ↔
      (kahnEmitted (buildGraph pop layers) pop).length <
        (buildGraph pop layers).length) ∧
    (∀ order, GlobalLayerOrder images layers =
        Except.error "cycle detected in layer dependency graph" →
      GlobalLayerOrder images layers ≠ Except.ok order) := by
  have hndpop : (keysA pop).Nodup :=
    popLoop_keys_nodup images layers images [] pop hpop (by simp [keysA])
  have hndg : (keysA (buildGraph pop layers)).Nodup :=
    hndpop.sublist (buildGraph_keys_sublist pop layers)
  obtain ⟨hnodup, hsub, hsound, hstuck, -⟩ :=
    kahnEmitted_props (buildGraph pop layers) pop hndg
  have hklen : (keysA (buildGraph pop layers)).length =
      (buildGraph pop layers).length := by simp [keysA]
  have hle : (kahnEmitted (buildGraph pop layers) pop).length ≤
      (buildGraph pop layers).length := by
    have := nodup_subset_length_le (kahnEmitted (buildGraph pop layers) pop)
      (keysA (buildGraph pop layers)) hnodup hsub
    omega
  have hGL : GlobalLayerOrder images layers =
      (if (kahnEmitted (buildGraph pop layers) pop).length ≠
          (buildGraph pop layers).length then
        (Except.error "cycle detected in layer dependency graph" :
          Except String (List String))
      else Except.ok (kahnEmitted (buildGraph pop layers) pop)) := by
    unfold GlobalLayerOrder
    rw [hpop]
    rfl
  have hiff2 : GlobalLayerOrder images layers =
      Except.error "cycle detected in layer dependency graph" ↔
      (kahnEmitted (buildGraph pop layers) pop).length ≠
        (buildGraph pop layers).length := by
    constructor
    · intro h
      rw [hGL] at h
      by_cases hc : (kahnEmitted (buildGraph pop layers) pop).length ≠
          (buildGraph pop layers).length
      · exact hc
      · rw [if_neg hc] at h
        cases h
    · intro h
      rw [hGL, if_pos h]
  have hlt : ((kahnEmitted (buildGraph pop layers) pop).length ≠
      (buildGraph pop layers).length) ↔
      ((kahnEmitted (buildGraph pop layers) pop).length <
        (buildGraph pop layers).length) := by omega
  refine ⟨?_, hiff2.trans hlt, ?_⟩
  · rw [hiff2, hlt]
    constructor
    · intro hless
      apply cycle_of_stuck (buildGraph pop layers)
        ((keysA (buildGraph pop layers)).filter
          (fun n => !(kahnEmitted (buildGraph pop layers) pop).contains n))
      · intro hempty
        have hall : ∀ n ∈ keysA (buildGraph pop layers),
            n ∈ kahnEmitted (buildGraph pop layers) pop := by
          intro n hn
          by_contra hne
          have : n ∈ (keysA (buildGraph pop layers)).filter
              (fun n => !(kahnEmitted (buildGraph pop layers) pop).contains
                n) :=
            List.mem_filter.mpr ⟨hn, by simpa using hne⟩
          rw [hempty] at this
          cases this
        have := nodup_subset_length_le (keysA (buildGraph pop layers))
          (kahnEmitted (buildGraph pop layers) pop) hndg hall
        omega
      · intro n hn
        obtain ⟨hnk, hne⟩ := List.mem_filter.mp hn
        have hnemem : n ∉ kahnEmitted (buildGraph pop layers) pop := by
          simpa using hne
        obtain ⟨d, hd1, hd2⟩ := hstuck n hnk hnemem
        refine ⟨d, hd1, List.mem_filter.mpr
          ⟨buildGraph_closed images layers pop hpop n hnk d hd1,
           by simpa using hd2⟩⟩
    · intro hcyc
      by_contra hnless
      have heq : (kahnEmitted (buildGraph pop layers) pop).length =
          (buildGraph pop layers).length := by omega
      exact no_cycle_of_complete (buildGraph pop layers) pop hndg heq hcyc
  · intro order h hok
    rw [h] at hok
    cases hok

/-- Witness for C9: on the acyclic pixi/python fixture the theorem applies
with popularity counting succeeding; the error condition is equivalent to a
cycle and to a short emission, both false here. -/
theorem globalLayerOrder_cycle_error_witness :
    popLoop [("a", mkImage "a" "ext:1" true ["python"])]
      [("pixi", mkLayer "pixi" []), ("python", mkLayer "python" ["pixi"])]
      [("a", mkImage "a" "ext:1" true ["python"])] [] =
      Except.ok [("pixi", 1), ("python", 1)] ∧
    (GlobalLayerOrder [("a", mkImage "a" "ext:1" true ["python"])]
        [("pixi", mkLayer "pixi" []), ("python", mkLayer "python" ["pixi"])] =
        Except.error "cycle detected in layer dependency graph" ↔
      HasCycle (buildGraph [("pixi", 1), ("python", 1)]
        [("pixi", mkLayer "pixi" []), ("python", mkLayer "python" ["pixi"])])) ∧
    (GlobalLayerOrder [("a", mkImage "a" "ext:1" true ["python"])]
        [("pixi", mkLayer "pixi" []), ("python", mkLayer "python" ["pixi"])] =
        Except.error "cycle detected in layer dependency graph" ↔
      (kahnEmitted (buildGraph [("pixi", 1), ("python", 1)]
          [("pixi", mkLayer "pixi" []),
           ("python", mkLayer "python" ["pixi"])])
          [("pixi", 1), ("python", 1)]).length <
        (buildGraph [("pixi", 1), ("python", 1)]
          [("pixi", mkLayer "pixi" []),
           ("python", mkLayer "python" ["pixi"])]).length) :=
  ⟨rfl,
   (globalLayerOrder_cycle_error [("a", mkImage "a" "ext:1" true ["python"])]
     [("pixi", mkLayer "pixi" []), ("python", mkLayer "python" ["pixi"])]
     [("pixi", 1), ("python", 1)] rfl).1,
   (globalLayerOrder_cycle_error [("a", mkImage "a" "ext:1" true ["python"])]
     [("pixi", mkLayer "pixi" []), ("python", mkLayer "python" ["pixi"])]
     [("pixi", 1), ("python", 1)] rfl).2.1⟩

theorem foldl_pres {α β : Type} (P : α → Prop) (f : α → β → α)
    (hf : ∀ a b, P a → P (f a b)) :
    ∀ (l : List β) (a : α), P a → P (l.foldl f a) := by
  intro l
  induction l with
  | nil => intro a ha; exact ha
  | cons x t ih =>
    intro a ha
    simp only [List.foldl_cons]
    exact ih _ (hf a x ha)

theorem sameFrame_refl (a : ResolvedImage) : sameFrame a a := by
  simp [sameFrame]

theorem frameOK_refl (m : List (String × ResolvedImage)) : FrameOK m m :=
  ⟨fun _ hk => hk,
   fun _ img0 hk => ⟨img0, hk, sameFrame_refl img0⟩,
   fun k _ hk hnk =>
     absurd ((lookupA_isSome_iff_mem_keys m k).mp (by simp [hk])) hnk⟩

theorem pickFreshAux_fresh (baseName : String)
    (result origImages : List (String × ResolvedImage)) :
    ∀ (f : Nat) (name : String) (suffix : Nat) (out : String),
      pickFreshAux baseName result origImages f name suffix = some out →
      out ∉ keysA origImages ∧ out ∉ keysA result := by
  intro f
  induction f with
  | zero =>
    intro name suffix out h
    cases h
  | succ f ih =>
    intro name suffix out h
    unfold pickFreshAux at h
    by_cases h1 : hasKeyA origImages name = true
    · rw [if_pos h1] at h
      exact ih _ _ _ h
    · rw [if_neg h1] at h
      by_cases h2 : hasKeyA result name = true
      · rw [if_pos h2] at h
        exact ih _ _ _ h
      · rw [if_neg h2] at h
        injection h with he
        subst he
        constructor
        · intro hm
          apply h1
          unfold hasKeyA
          simpa using (lookupA_isSome_iff_mem_keys _ _).mpr hm
        · intro hm
          apply h2
          unfold hasKeyA
          simpa using (lookupA_isSome_iff_mem_keys _ _).mpr hm

theorem pickIntermediateName_cases (node : TrieNode) (path : List String)
    (res orig : List (String × ResolvedImage)) (out : String)
    (h : pickIntermediateName node path res orig = some out) :
    (node.imagesOf.length = 1 ∧ out = node.imagesOf.headD "") ∨
    (out ∉ keysA orig ∧ out ∉ keysA res) := by
  unfold pickIntermediateName at h
  by_cases h1 : node.imagesOf.length = 1
  · rw [if_pos h1] at h
    left
    refine ⟨h1, ?_⟩
    cases hi : node.imagesOf with
    | nil =>
      rw [hi] at h1
      cases h1
    | cons x t =>
      rw [hi] at h
      injection h with he
      exact he.symm
  · rw [if_neg h1] at h
    right
    exact pickFreshAux_fresh _ _ _ _ _ _ _ h

theorem frameOK_updateImageBase (images res : List (String × ResolvedImage))
    (n p : String) (h : FrameOK images res) :
    FrameOK images (updateImageBase n p res) := by
  unfold updateImageBase
  cases hl : lookupA res n with
  | none => exact h
  | some img =>
    dsimp only
    refine ⟨?_, ?_, ?_⟩
    · intro k hk
      rw [keysA_setA]
      by_cases hm : n ∈ keysA res
      · rw [if_pos hm]
        exact h.keys k hk
      · rw [if_neg hm]
        exact List.mem_append_left _ (h.keys k hk)
    · intro k img0 hk
      obtain ⟨i2, hi2, hsf⟩ := h.pres k img0 hk
      by_cases he : n = k
      · subst he
        rw [hl] at hi2
        injection hi2 with hi2e
        refine ⟨_, lookupA_setA_self res n _, ?_⟩
        rw [hi2e]
        exact hsf
      · refine ⟨i2, ?_, hsf⟩
        rw [lookupA_setA_ne res n k _ he]
        exact hi2
    · intro k i hk hnk
      by_cases he : n = k
      · subst he
        rw [lookupA_setA_self] at hk
        injection hk with hke
        rw [← hke]
        exact h.auto n img hl hnk
      · rw [lookupA_setA_ne res n k _ he] at hk
        exact h.auto k i hk hnk

theorem frameOK_createIntermediate
    (images res : List (String × ResolvedImage)) (name parent : String)
    (path : List String) (cfg : Config) (tag : String)
    (layers : List (String × Layer)) (go : List String)
    (hfresh : name ∉ keysA images) (h : FrameOK images res) :
    FrameOK images (createIntermediate name parent path res cfg tag layers
      go) := by
  unfold createIntermediate
  dsimp only
  refine ⟨?_, ?_, ?_⟩
  · intro k hk
    rw [keysA_setA]
    by_cases hm : name ∈ keysA res
    · rw [if_pos hm]
      exact h.keys k hk
    · rw [if_neg hm]
      exact List.mem_append_left _ (h.keys k hk)
  · intro k img0 hk
    obtain ⟨i2, hi2, hsf⟩ := h.pres k img0 hk
    have hne : name ≠ k := by
      intro he
      subst he
      exact hfresh ((lookupA_isSome_iff_mem_keys images name).mp
        (by simp [hk]))
    refine ⟨i2, ?_, hsf⟩
    rw [lookupA_setA_ne res name k _ hne]
    exact hi2
  · intro k i hk hnk
    by_cases he : name = k
    · subst he
      rw [lookupA_setA_self] at hk
      injection hk with hke
      rw [← hke]
    · rw [lookupA_setA_ne res name k _ he] at hk
      exact h.auto k i hk hnk

theorem intBaseSound_setA (res : List (String × ResolvedImage))
    (name : String) (img : ResolvedImage)
    (hbase : img.IsExternalBase = false → img.Base ∈ keysA res)
    (h : InternalBaseSound res) : InternalBaseSound (setA res name img) := by
  have hkeys : ∀ m ∈ keysA res, m ∈ keysA (setA res name img) := by
    intro m hm
    rw [keysA_setA]
    by_cases hmem : name ∈ keysA res
    · rw [if_pos hmem]
      exact hm
    · rw [if_neg hmem]
      exact List.mem_append_left _ hm
  intro k i hk hext
  by_cases he : name = k
  · subst he
    rw [lookupA_setA_self] at hk
    injection hk with hke
    rw [← hke] at hext
    rw [← hke]
    exact hkeys img.Base (hbase hext)
  · rw [lookupA_setA_ne res name k _ he] at hk
    exact hkeys i.Base (h k i hk hext)

theorem intBaseSound_updateImageBase (res : List (String × ResolvedImage))
    (n p : String) (h : InternalBaseSound res) :
    InternalBaseSound (updateImageBase n p res) := by
  unfold updateImageBase
  cases hl : lookupA res n with
  | none => exact h
  | some img =>
    dsimp only
    apply intBaseSound_setA res n _ ?_ h
    intro hext
    have hp : hasKeyA res p = true := by
      by_contra hc
      rw [Bool.not_eq_true] at hc
      have : (!(hasKeyA res p)) = false := hext
      rw [hc] at this
      cases this
    show p ∈ keysA res
    unfold hasKeyA at hp
    exact (lookupA_isSome_iff_mem_keys res p).mp (by simpa using hp)

theorem intBaseSound_createIntermediate
    (res : List (String × ResolvedImage)) (name parent : String)
    (path : List String) (cfg : Config) (tag : String)
    (layers : List (String × Layer)) (go : List String)
    (h : InternalBaseSound res) :
    InternalBaseSound (createIntermediate name parent path res cfg tag
      layers go) := by
  unfold createIntermediate
  dsimp only
  apply intBaseSound_setA res name _ ?_ h
  intro hext
  have hp : hasKeyA res parent = true := by
    by_contra hc
    rw [Bool.not_eq_true] at hc
    have : (!(hasKeyA res parent)) = false := hext
    rw [hc] at this
    cases this
  show parent ∈ keysA res
  unfold hasKeyA at hp
  exact (lookupA_isSome_iff_mem_keys res parent).mp (by simpa using hp)

theorem walkTrie_pres (images : List (String × ResolvedImage))
    (layers : List (String × Layer)) (cfg : Config) (tag : String)
    (go : List String) (P : List (String × ResolvedImage) → Prop)
    (hupd : ∀ res n p, P res → P (updateImageBase n p res))
    (hcre : ∀ res name parent path, name ∉ keysA images → P res →
      P (createIntermediate name parent path res cfg tag layers go)) :
    ∀ (f : Nat) (node : TrieNode) (parent : String)
      (res : List (String × ResolvedImage)), P res →
      P (walkTrie images layers cfg tag go f node parent res) := by
  intro f
  induction f with
  | zero =>
    intro node parent res h
    exact h
  | succ f ih =>
    intro node parent res h
    unfold walkTrie
    refine foldl_pres P _ ?_ _ res h
    intro a childKey ha
    cases hc : lookupA node.childrenOf childKey with
    | none => exact ha
    | some child =>
      dsimp only
      generalize collapseChain (f + 1) child [childKey] = pc
      obtain ⟨pathL, cur⟩ := pc
      dsimp only
      by_cases hb : 2 ≤ cur.childrenOf.length ∨
          (1 ≤ cur.childrenOf.length ∧ 0 < cur.imagesOf.length)
      · rw [if_pos hb]
        cases hp : pickIntermediateName cur pathL a images with
        | none => exact ha
        | some iname =>
          dsimp only
          by_cases h1 : cur.imagesOf.length = 1 ∧
              ¬ isExistingImageReusable (cur.imagesOf.headD "") images = true
          · rw [if_pos h1]
            have hfresh : iname ∉ keysA images := by
              rcases pickIntermediateName_cases cur pathL a images iname hp
                with ⟨hlen, he⟩ | ⟨hni, -⟩
              · intro hm
                apply h1.2
                unfold isExistingImageReusable hasKeyA
                rw [← he]
                simpa using (lookupA_isSome_iff_mem_keys images iname).mpr hm
              · exact hni
            exact ih cur iname _ (hupd _ _ _ (hcre a iname parent pathL
              hfresh ha))
          · rw [if_neg h1]
            by_cases h2 : cur.imagesOf.length = 1
            · rw [if_pos h2]
              exact ih cur _ _ (hupd a _ parent ha)
            · rw [if_neg h2]
              have hfresh : iname ∉ keysA images := by
                rcases pickIntermediateName_cases cur pathL a images iname hp
                  with ⟨hlen, -⟩ | ⟨hni, -⟩
                · exact absurd hlen h2
                · exact hni
              by_cases h3 : 1 < cur.imagesOf.length
              · rw [if_pos h3]
                refine ih cur iname _ ?_
                refine foldl_pres P _ ?_ cur.imagesOf _
                  (hcre a iname parent pathL hfresh ha)
                intro r i hr
                exact hupd r i iname hr
              · rw [if_neg h3]
                exact ih cur iname _ (hcre a iname parent pathL hfresh ha)
      · rw [if_neg hb]
        by_cases hl : cur.childrenOf.length = 0
        · rw [if_pos hl]
          refine foldl_pres P _ ?_ cur.imagesOf _ ha
          intro r i hr
          exact hupd r i parent hr
        · rw [if_neg hl]
          exact ha

theorem computeIntermediates_pres (keyOrder : List String)
    (images : List (String × ResolvedImage))
    (layers : List (String × Layer)) (cfg : Config) (tag : String)
    (result : List (String × ResolvedImage))
    (P : List (String × ResolvedImage) → Prop)
    (hupd : ∀ res n p, P res → P (updateImageBase n p res))
    (hcre : ∀ go res name parent path, name ∉ keysA images → P res →
      P (createIntermediate name parent path res cfg tag layers go))
    (h : ComputeIntermediates keyOrder images layers cfg tag =
      Except.ok result)
    (h0 : P images) : P result := by
  unfold ComputeIntermediates at h
  cases hg : GlobalLayerOrder images layers with
  | error e =>
    rw [hg] at h
    cases h
  | ok globalOrder =>
    rw [hg] at h
    dsimp only at h
    injection h with he
    rw [← he]
    refine foldl_pres P _ ?_ keyOrder images h0
    intro a key ha
    cases hl : lookupA (baseGroups images) key with
    | none => exact ha
    | some names0 =>
      dsimp only
      by_cases hle : (sortStrings names0).length ≤ 1
      · rw [if_pos hle]
        exact ha
      · rw [if_neg hle]
        exact walkTrie_pres images layers cfg tag globalOrder P hupd
          (hcre globalOrder) _ _ _ a ha

theorem intBaseSound_of_all_external (m : List (String × ResolvedImage))
    (hall : ∀ p ∈ m, p.2.IsExternalBase = true) : InternalBaseSound m := by
  intro k img hk hext
  have hm : (k, img) ∈ m := mem_of_lookupA_eq_some hk
  have htrue : img.IsExternalBase = true := hall (k, img) hm
  rw [htrue] at hext
  cases hext

/-- C8: `ComputeIntermediates` only inserts auto images and rewrites bases:
every input key survives into the result, every input image keeps all its
fields except possibly `Base` and `IsExternalBase`, and every key added
beyond the input keys carries `Auto = true`. -/
theorem computeIntermediates_frame (keyOrder : List String)
    (images : List (String × ResolvedImage))
    (layers : List (String × Layer)) (cfg : Config) (tag : String)
    (result : List (String × ResolvedImage))
    (h : ComputeIntermediates keyOrder images layers cfg tag =
      Except.ok result) : FrameOK images result :=
  computeIntermediates_pres keyOrder images layers cfg tag result
    (FrameOK images)
    (fun res n p hp => frameOK_updateImageBase images res n p hp)
    (fun go res name parent path hf hp =>
      frameOK_createIntermediate images res name parent path cfg tag layers
        go hf hp)
    h (frameOK_refl images)

/-- Witness for C8 on the shared-prefix scenario: the concrete result keeps
all three input images (unchanged outside Base/IsExternalBase) and the one
new key is the auto image "supervisord". -/
theorem computeIntermediates_frame_witness :
    ComputeIntermediates ["ext:1"] sharedImages sharedLayers cfgR "v1" =
      Except.ok sharedResult ∧
    FrameOK sharedImages sharedResult :=
  ⟨rfl,
   computeIntermediates_frame ["ext:1"] sharedImages sharedLayers cfgR "v1"
     sharedResult rfl⟩

/-- C7 counterexample: on a biconditional-consistent input, a later-created
auto-intermediate can capture the string that image x's Base uses as an
external reference; x keeps `IsExternalBase = true` although its Base now
names a result entry, refuting the claimed iff. -/
theorem external_base_flag_captured_by_intermediate :
    (∀ p ∈ c7Images,
      (p.2.IsExternalBase = true ↔ p.2.Base ∉ keysA c7Images)) ∧
    ∃ result,
      ComputeIntermediates ["ext:a", "shared"] c7Images c7Layers cfgR "v1" =
        Except.ok result ∧
      ∃ img, lookupA result "x" = some img ∧ img.IsExternalBase = true ∧
        img.Base ∈ keysA result := by
  refine ⟨by decide, _, rfl, _, rfl, rfl, by decide⟩

/-- C7 (amended): the direction of the invariant that the code maintains.
If every input image flagged internal has its base among the input keys,
then in the result every image flagged internal has its base among the
result keys.  (The converse direction fails: an auto-intermediate created
later can capture an external base reference, see the counterexample.) -/
theorem computeIntermediates_internal_base_sound (keyOrder : List String)
    (images : List (String × ResolvedImage))
    (layers : List (String × Layer)) (cfg : Config) (tag : String)
    (result : List (String × ResolvedImage))
    (hin : InternalBaseSound images)
    (h : ComputeIntermediates keyOrder images layers cfg tag =
      Except.ok result) : InternalBaseSound result :=
  computeIntermediates_pres keyOrder images layers cfg tag result
    InternalBaseSound
    (fun res n p hp => intBaseSound_updateImageBase res n p hp)
    (fun go res name parent path _ hp =>
      intBaseSound_createIntermediate res name parent path cfg tag layers go
        hp)
    h hin

/-- Witness for the amended C7 on the counterexample input (whose images
are all externally based, so the hypothesis holds): internal-base soundness
of the result. -/
theorem computeIntermediates_internal_base_sound_witness :
    ComputeIntermediates ["ext:a", "shared"] c7Images c7Layers cfgR "v1" =
      Except.ok (ComputeIntermediates ["ext:a", "shared"] c7Images c7Layers
        cfgR "v1").toOption.get! ∧
    InternalBaseSound (ComputeIntermediates ["ext:a", "shared"] c7Images
      c7Layers cfgR "v1").toOption.get! :=
  ⟨rfl,
   computeIntermediates_internal_base_sound ["ext:a", "shared"] c7Images
     c7Layers cfgR "v1" _
     (intBaseSound_of_all_external c7Images (by decide)) rfl⟩
